import Mathlib

/-!
# Verification of the birding-vibing ingestion pipeline and source router

This development gives a shallow embedding of the core of the repository:

* `src/database/ingestion.py` — record transformation
  (`transform_artportalen_to_db_record`), batch upsert with retry
  (`IngestionPipeline.ingest_batch`), coverage check
  (`IngestionPipeline.check_existing_data`), date chunking
  (`get_date_chunks`, `split_date_range_into_weeks`,
  `split_date_range_into_days`), recursive chunk splitting
  (`recursive_split_chunk`), the pagination loop and the chunk-processing
  loop of `process_date_range`;
* `src/api/unified_client.py` — the mixed-range merge path of
  `UnifiedAPIClient.search_occurrences`;
* `src/app.py` — `_deduplicate_results`.

Python `datetime` values are embedded as a calendar date (proleptic
Gregorian, a `(year, month, day)` triple) together with a time of day in
whole seconds.  All call sites in the repository construct datetimes at
whole-second granularity (`datetime(y, m, 1)`, `datetime.combine(d,
datetime.min.time())`), so sub-second fields are not modelled.  Loops of
the source whose termination depends on data (or which do not terminate)
are embedded fuel-indexed, returning `none` when the fuel is exhausted;
a result `some v` for some fuel corresponds to a terminating run of the
Python loop with value `v`.
-/

namespace Birding

/-! ## Calendar dates and datetimes -/

/-- A proleptic Gregorian calendar date, as Python's `datetime.date`. -/
structure CalDate where
  y : Int
  m : Nat
  d : Nat
deriving DecidableEq, Repr

/-- Gregorian leap-year predicate. -/
def isLeap (y : Int) : Bool :=
  (y % 4 == 0 && y % 100 != 0) || y % 400 == 0

/-- Number of days in a month (months outside 1..12 give 0; such dates are
not valid and never arise from valid inputs). -/
def daysInMonth (y : Int) (m : Nat) : Nat :=
  if m = 1 ∨ m = 3 ∨ m = 5 ∨ m = 7 ∨ m = 8 ∨ m = 10 ∨ m = 12 then 31
  else if m = 4 ∨ m = 6 ∨ m = 9 ∨ m = 11 then 30
  else if m = 2 then (if isLeap y then 29 else 28)
  else 0

/-- Validity of a calendar date. -/
def CalDate.Valid (a : CalDate) : Prop :=
  1 ≤ a.m ∧ a.m ≤ 12 ∧ 1 ≤ a.d ∧ a.d ≤ daysInMonth a.y a.m

instance (a : CalDate) : Decidable a.Valid := by
  unfold CalDate.Valid; infer_instance

/-- Calendar successor of a date (`+ timedelta(days=1)` on dates). -/
def succDay (a : CalDate) : CalDate :=
  if a.d < daysInMonth a.y a.m then ⟨a.y, a.m, a.d + 1⟩
  else if a.m < 12 then ⟨a.y, a.m + 1, 1⟩
  else ⟨a.y + 1, 1, 1⟩

/-- Calendar predecessor of a date (`- timedelta(days=1)` on dates). -/
def predDay (a : CalDate) : CalDate :=
  if 1 < a.d then ⟨a.y, a.m, a.d - 1⟩
  else if 1 < a.m then ⟨a.y, a.m - 1, daysInMonth a.y (a.m - 1)⟩
  else ⟨a.y - 1, 12, 31⟩

/-- `+ timedelta(days=n)` on dates. -/
def addDays (a : CalDate) (n : Nat) : CalDate := succDay^[n] a

/-- Chronological (lexicographic) strict order on calendar dates, as a
Boolean; for valid dates this is Python's `date` comparison. -/
def calLtb (a b : CalDate) : Bool :=
  a.y < b.y || (a.y == b.y && (a.m < b.m || (a.m == b.m && a.d < b.d)))

def calLeb (a b : CalDate) : Bool := calLtb a b || a == b

/-- Day number of a date in the proleptic Gregorian calendar (days since
the epoch 0000-12-31, so that 0001-01-01 is day 1); implements the exact
day arithmetic that Python's `datetime` subtraction performs. -/
def toDayNumber (a : CalDate) : Int :=
  let yp := a.y - 1
  let leaps := yp.fdiv 4 - yp.fdiv 100 + yp.fdiv 400
  let daysBeforeMonth : Int :=
    ((List.range a.m).drop 1).foldl (fun s k => s + (daysInMonth a.y k : Int)) 0
  365 * yp + leaps + daysBeforeMonth + a.d

/-- A Python `datetime` at whole-second granularity: a calendar date plus
a time of day in seconds (`hour*3600 + minute*60 + second`). -/
structure DT where
  date : CalDate
  tod : Nat
deriving DecidableEq, Repr

def DT.Valid (t : DT) : Prop := t.date.Valid ∧ t.tod < 86400

instance (t : DT) : Decidable t.Valid := by unfold DT.Valid; infer_instance

/-- Chronological strict order on datetimes (Python `datetime` `<`). -/
def dtLtb (a b : DT) : Bool :=
  calLtb a.date b.date || (a.date == b.date && a.tod < b.tod)

def dtLeb (a b : DT) : Bool := dtLtb a b || a == b

/-- Python `min` of two datetimes: the first argument on ties. -/
def dtMin (a b : DT) : DT := if dtLeb a b then a else b

/-- `+ timedelta(days=n)` on datetimes: the time of day is preserved. -/
def DT.addDays (t : DT) (n : Nat) : DT := ⟨Birding.addDays t.date n, t.tod⟩

/-- `- timedelta(days=1)` on datetimes. -/
def DT.predDay (t : DT) : DT := ⟨Birding.predDay t.date, t.tod⟩

/-- `+ timedelta(seconds=1)` on datetimes. -/
def DT.addSecond (t : DT) : DT :=
  if t.tod + 1 < 86400 then ⟨t.date, t.tod + 1⟩ else ⟨succDay t.date, 0⟩

/-- `.replace(hour=23, minute=59, second=59)`. -/
def DT.endOfDay (t : DT) : DT := ⟨t.date, 86399⟩

/-- `.replace(hour=0, minute=0, second=0)`. -/
def DT.floorDay (t : DT) : DT := ⟨t.date, 0⟩

/-- `(b - a).days` for datetimes: Python `timedelta.days`, the floor of
the exact difference in days. -/
def diffDays (b a : DT) : Int :=
  ((toDayNumber b.date - toDayNumber a.date) * 86400 + (b.tod : Int) - (a.tod : Int)).fdiv 86400

/-- A datetime at midnight on the given date, the shape every caller of
the pipeline passes (`datetime(y, m, d)` / `datetime.combine(date,
datetime.min.time())`). -/
def midnight (y : Int) (m d : Nat) : DT := ⟨⟨y, m, d⟩, 0⟩

/-! ## Python values

The raw records handled by `transform_artportalen_to_db_record` are
dynamically typed dictionaries.  `PyV` models the scalar values that can
sit in a field: strings, ints, floats (as exact rationals), booleans,
`date`/`datetime` objects and `None`.  A `.get` on an absent key returns
`None`, so fields read only via `.get` are modelled as a plain `PyV`
with `vNone` for "absent or null"; fields whose presence is tested with
`in` are modelled as `Option PyV`. -/

inductive PyV where
  | vNone
  | vStr (s : String)
  | vInt (n : Int)
  | vRat (q : Rat)
  | vBool (b : Bool)
  | vDate (d : CalDate)
  | vDatetime (t : DT)
deriving DecidableEq, Repr

/-- Python truthiness of a value. -/
def truthy : PyV → Bool
  | .vNone => false
  | .vStr s => !(s == "")
  | .vInt n => !(n == 0)
  | .vRat q => !(q == 0)
  | .vBool b => b
  | .vDate _ => true
  | .vDatetime _ => true

/-- Python `a or b`. -/
def pyOr (a b : PyV) : PyV := if truthy a then a else b

/-- Python `str(v)`.  The exact formatting of non-string values is only
used as opaque key material by the code under study, so numbers are
rendered by their Lean `toString`. -/
def pyStr : PyV → String
  | .vNone => "None"
  | .vStr s => s
  | .vInt n => toString n
  | .vRat q => toString q
  | .vBool b => if b then "True" else "False"
  | .vDate d => toString d.y ++ "-" ++ toString d.m ++ "-" ++ toString d.d
  | .vDatetime t => toString t.date.y ++ "-" ++ toString t.date.m ++ "-"
      ++ toString t.date.d ++ " +" ++ toString t.tod

/-! The string utilities below (split, trim, digit runs) are defined
over character lists so that concrete parses evaluate by kernel
reduction; they implement the Python string operations the transform
uses. -/

/-- Is every character a decimal digit (and the run nonempty)? -/
def chAllDigits (l : List Char) : Bool := !(l.isEmpty) && l.all (·.isDigit)

/-- The number denoted by a run of decimal digits. -/
def chToNat (l : List Char) : Nat := l.foldl (fun n c => n * 10 + (c.toNat - 48)) 0

/-- `str.split(sep)` for a one-character separator. -/
def chSplit (sep : Char) : List Char → List (List Char)
  | [] => [[]]
  | c :: rest =>
    if c = sep then [] :: chSplit sep rest
    else
      match chSplit sep rest with
      | g :: gs => (c :: g) :: gs
      | [] => [[c]]

/-- `str.strip()`. -/
def chTrim (l : List Char) : List Char :=
  ((l.dropWhile (·.isWhitespace)).reverse.dropWhile (·.isWhitespace)).reverse

/-- Python `float(s)` for a string, restricted to plain decimal literals
`[+-]?digits[.digits]`, `[+-]?.digits` (the forms occurring in the data;
exponents, `inf` and `nan` are not modelled). -/
def parsePyFloat (s : String) : Option Rat :=
  let t := chTrim s.data
  let sb : Int × List Char :=
    match t with
    | '-' :: rest => (-1, rest)
    | '+' :: rest => (1, rest)
    | _ => (1, t)
  match chSplit '.' sb.2 with
  | [a] => if chAllDigits a then some ((sb.1 * (chToNat a : Int) : Int) : Rat) else none
  | [a, b] =>
      if (a.isEmpty || chAllDigits a) && (b.isEmpty || chAllDigits b)
          && !(a.isEmpty && b.isEmpty) then
        some (((sb.1 : Int) : Rat) *
          ((chToNat a : Rat) + (chToNat b : Rat) / ((10 : Rat) ^ b.length)))
      else none
  | _ => none

/-- Python `float(v)` for a non-`None` value: floats and ints coerce,
booleans coerce to 0/1, strings are parsed, anything else raises
(`none` here models the raised `ValueError`/`TypeError`). -/
def pyFloatNonNone : PyV → Option Rat
  | .vInt n => some (n : Rat)
  | .vRat q => some q
  | .vBool b => some (if b then 1 else 0)
  | .vStr s => parsePyFloat s
  | _ => none

/-- `float(v) if v is not None else None` wrapped in try/except:
`.error ()` models a raised coercion error, `.ok none` the `None`
passthrough. -/
def coerceCoord (v : PyV) : Except Unit (Option Rat) :=
  match v with
  | .vNone => .ok none
  | w => match pyFloatNonNone w with
    | some q => .ok (some q)
    | none => .error ()

/-- Python `int(v)` wrapped so that any failure (including `v = None`,
which skips the call) yields `none`, exactly the outcome of the
source's try/except around the quantity and uncertainty coercions. -/
def pyIntOpt : PyV → Option Int
  | .vInt n => some n
  | .vBool b => some (if b then 1 else 0)
  | .vRat q => some (q.num.tdiv (q.den : Int))
  | .vStr s =>
      let t := chTrim s.data
      match t with
      | '-' :: rest => if chAllDigits rest then some (-(chToNat rest : Int)) else none
      | '+' :: rest => if chAllDigits rest then some ((chToNat rest : Int)) else none
      | _ => if chAllDigits t then some ((chToNat t : Int)) else none
  | _ => none

/-- A dictionary-valued field: `"k" in record and isinstance(record["k"],
dict)` distinguishes a present dict (`obj`) from a present non-dict
(`nondict`, carrying the value) and an absent key (`absent`). -/
inductive PyField (α : Type) where
  | absent
  | nondict (v : PyV)
  | obj (a : α)
deriving DecidableEq, Repr

/-! ## Raw records and `transform_artportalen_to_db_record` -/

structure OccObj where
  occurrenceId : PyV
  individualCount : PyV
deriving DecidableEq, Repr

structure EventObj where
  startDate : PyV
  endDate : PyV
deriving DecidableEq, Repr

structure TaxonObj where
  vernacularName : PyV
  commonName : PyV
  scientificName : PyV
deriving DecidableEq, Repr

structure SiteObj where
  name : PyV
deriving DecidableEq, Repr

structure LocObj where
  decimalLatitude : PyV
  latitude : PyV
  decimalLongitude : PyV
  longitude : PyV
  site : PyField SiteObj
  locationName : PyV
  siteName : PyV
  name : PyV
  coordinateUncertaintyInMeters : PyV
deriving DecidableEq, Repr

structure OwnerObj where
  name : PyV
  userName : PyV
deriving DecidableEq, Repr

structure IdentObj where
  verified : PyV
  uncertainIdentification : PyV
deriving DecidableEq, Repr

/-- A raw observation record as read by
`transform_artportalen_to_db_record`: exactly the keys the function
accesses.  Keys read only with `.get` are `PyV` (with `vNone` for
absent); keys whose presence is tested with `in` are `Option PyV` or a
`PyField`. -/
structure RawRecord where
  occurrence : PyField OccObj
  occurrenceId : PyV
  idField : PyV
  observationId : PyV
  event : PyField EventObj
  eventDate : Option PyV
  observationDate : Option PyV
  startDate : Option PyV
  dateField : Option PyV
  taxon : PyField TaxonObj
  vernacularName : Option PyV
  commonName : Option PyV
  scientificName : PyV
  location : PyField LocObj
  decimalLatitude : PyV
  latitude : PyV
  decimalLongitude : PyV
  longitude : PyV
  locationName : PyV
  siteName : PyV
  locality : PyV
  owner : PyField OwnerObj
  observerName : PyV
  observer : PyV
  individualCount : PyV
  quantity : PyV
  countField : PyV
  identification : PyField IdentObj
  verificationStatus : PyV
  status : PyV
  habitat : PyV
  biotope : PyV
  environment : PyV
  coordinateUncertaintyInMeters : PyV
  uncertainty : PyV
deriving DecidableEq, Repr

/-- The all-absent raw record, a convenient base for building inputs. -/
def emptyRaw : RawRecord where
  occurrence := .absent
  occurrenceId := .vNone
  idField := .vNone
  observationId := .vNone
  event := .absent
  eventDate := none
  observationDate := none
  startDate := none
  dateField := none
  taxon := .absent
  vernacularName := none
  commonName := none
  scientificName := .vNone
  location := .absent
  decimalLatitude := .vNone
  latitude := .vNone
  decimalLongitude := .vNone
  longitude := .vNone
  locationName := .vNone
  siteName := .vNone
  locality := .vNone
  owner := .absent
  observerName := .vNone
  observer := .vNone
  individualCount := .vNone
  quantity := .vNone
  countField := .vNone
  identification := .absent
  verificationStatus := .vNone
  status := .vNone
  habitat := .vNone
  biotope := .vNone
  environment := .vNone
  coordinateUncertaintyInMeters := .vNone
  uncertainty := .vNone

/-- `strptime(date_str, "%Y-%m-%d").date()`: three dash-separated digit
groups (year up to 4 digits, month and day up to 2), validated as a
calendar date. -/
def parseYmdCh (l : List Char) : Option CalDate :=
  match chSplit '-' l with
  | [ys, ms, ds] =>
      if chAllDigits ys && chAllDigits ms && chAllDigits ds
          && ys.length ≤ 4 && ms.length ≤ 2 && ds.length ≤ 2 then
        let y : Int := (chToNat ys : Int)
        let m := chToNat ms
        let d := chToNat ds
        if 1 ≤ y && 1 ≤ m && m ≤ 12 && 1 ≤ d && d ≤ daysInMonth y m then
          some ⟨y, m, d⟩
        else none
      else none
  | _ => none

/-- A strictly padded ISO date `YYYY-MM-DD`, as `datetime.fromisoformat`
requires for the date part. -/
def parseIsoDatePartCh (l : List Char) : Option CalDate :=
  match chSplit '-' l with
  | [ys, ms, ds] =>
      if chAllDigits ys && chAllDigits ms && chAllDigits ds
          && ys.length == 4 && ms.length == 2 && ds.length == 2 then
        parseYmdCh l
      else none
  | _ => none

/-- A `HH:MM[:SS]` time component, with an optional `+00:00` offset (the
result of the source's `replace('Z', '+00:00')`). -/
def isIsoTimePartCh (l : List Char) : Bool :=
  let suffix : List Char := ['+', '0', '0', ':', '0', '0']
  let core :=
    if 6 ≤ l.length && l.drop (l.length - 6) == suffix then l.take (l.length - 6)
    else l
  match chSplit ':' core with
  | [h, m] => chAllDigits h && chAllDigits m && h.length == 2 && m.length == 2
      && chToNat h < 24 && chToNat m < 60
  | [h, m, sec] => chAllDigits h && chAllDigits m && chAllDigits sec
      && h.length == 2 && m.length == 2 && sec.length == 2
      && chToNat h < 24 && chToNat m < 60 && chToNat sec < 60
  | _ => false

/-- `str.replace('Z', '+00:00')`. -/
def chReplaceZ : List Char → List Char
  | [] => []
  | c :: rest =>
    if c = 'Z' then '+' :: '0' :: '0' :: ':' :: '0' :: '0' :: chReplaceZ rest
    else c :: chReplaceZ rest

/-- The source's fallback `datetime.fromisoformat(date_str.replace('Z',
'+00:00')).date()`, modelled on the grammar subset that can reach it:
a padded ISO date, optionally followed by a space and a time. -/
def parseIsoFallbackCh (l : List Char) : Option CalDate :=
  let t := chReplaceZ l
  match chSplit ' ' t with
  | [d] => parseIsoDatePartCh d
  | [d, tm] => if isIsoTimePartCh tm then parseIsoDatePartCh d else none
  | _ => none

/-- Date extraction from a string value: strip at `T` and `+`, try
`%Y-%m-%d`, then the `fromisoformat` fallback; `none` models the
`return None` on an unparseable date. -/
def parseDateStr (s : String) : Option CalDate :=
  let dateStr := (chSplit '+' ((chSplit 'T' s.data).headD [])).headD []
  match parseYmdCh dateStr with
  | some d => some d
  | none => parseIsoFallbackCh dateStr

/-- The raw value feeding the observation date: `event.startDate or
event.endDate` when `event` is a present dict, else the first present
key among `eventDate`, `observationDate`, `startDate`, `date`. -/
def extractDateValue (r : RawRecord) : PyV :=
  match r.event with
  | .obj ev => pyOr ev.startDate ev.endDate
  | _ =>
    match r.eventDate with
    | some v => v
    | none =>
      match r.observationDate with
      | some v => v
      | none =>
        match r.startDate with
        | some v => v
        | none =>
          match r.dateField with
          | some v => v
          | none => .vNone

/-- The observation-date step of the transform: `none` models `return
None`; `some none` models "no `observation_date` key set" (a truthy
value of an unhandled type); `some (some v)` the stored value.  In
Python a `datetime` is an instance of `date`, so the `isinstance(...,
date)` branch also catches `datetime` values and stores them unchanged
(the dedicated `datetime` branch is dead code). -/
def extractObservationDate (r : RawRecord) : Option (Option PyV) :=
  let v := extractDateValue r
  if truthy v then
    match v with
    | .vStr s => (parseDateStr s).map (fun d => some (.vDate d))
    | .vDate d => some (some (.vDate d))
    | .vDatetime t => some (some (.vDatetime t))
    | _ => some none
  else none

/-- The transformed record written to storage, with the exact fields of
the source's `db_record` dictionary.  `latitude`/`longitude` are the
coerced floats; `observation_date` is `none` when the key was never set. -/
structure DbRecord where
  id : PyV
  observation_date : Option PyV
  species_name : PyV
  species_scientific : PyV
  latitude : Option Rat
  longitude : Option Rat
  location_name : PyV
  observer_name : PyV
  quantity : Option Int
  verification_status : PyV
  habitat : PyV
  coordinate_uncertainty : Option Rat
  api_source : String
deriving DecidableEq, Repr

/-- The raw latitude consulted by the transform:
`location.get("decimalLatitude") or location.get("latitude")` when
`location` is a present dict, else the top-level keys. -/
def rawLatOf (r : RawRecord) : PyV :=
  match r.location with
  | .obj loc => pyOr loc.decimalLatitude loc.latitude
  | _ => pyOr r.decimalLatitude r.latitude

/-- The raw longitude consulted by the transform. -/
def rawLonOf (r : RawRecord) : PyV :=
  match r.location with
  | .obj loc => pyOr loc.decimalLongitude loc.longitude
  | _ => pyOr r.decimalLongitude r.longitude

/-- `transform_artportalen_to_db_record`.  `hashFn` stands for Python's
opaque `hash(str(record))` used to derive a fallback id.  Returns `none`
exactly where the source returns `None`: unparseable or missing date,
coordinate coercion failure, or missing coordinate. -/
def transform (hashFn : RawRecord → Int) (r : RawRecord) : Option DbRecord :=
  -- id
  let occurrenceId : PyV :=
    match r.occurrence with
    | .obj o => o.occurrenceId
    | _ => .vNone
  let recId : PyV :=
    pyOr occurrenceId (pyOr r.occurrenceId (pyOr r.idField (pyOr r.observationId
      (.vStr ("artportalen_" ++ toString (hashFn r))))))
  -- observation date
  match extractObservationDate r with
  | none => none
  | some obsDate =>
  -- species
  let species : PyV × PyV :=
    match r.taxon with
    | .obj t => (pyOr t.vernacularName t.commonName, t.scientificName)
    | _ =>
      match r.vernacularName with
      | some v => (v, r.scientificName)
      | none =>
        match r.commonName with
        | some v => (v, r.scientificName)
        | none => (.vNone, .vNone)
  -- location
  let locName : PyV :=
    match r.location with
    | .obj loc =>
      match loc.site with
      | .obj site => site.name
      | _ => pyOr loc.locationName (pyOr loc.siteName loc.name)
    | _ => pyOr r.locationName (pyOr r.siteName r.locality)
  -- coordinate coercion and validation
  match coerceCoord (rawLatOf r), coerceCoord (rawLonOf r) with
  | .error _, _ => none
  | _, .error _ => none
  | .ok latOpt, .ok lonOpt =>
  if latOpt.isNone || lonOpt.isNone then none
  else
  -- observer
  let observerName : PyV :=
    match r.owner with
    | .obj o => pyOr o.name o.userName
    | .nondict v => .vStr (pyStr v)
    | .absent => pyOr r.observerName r.observer
  -- quantity
  let quantityVal : PyV :=
    match r.occurrence with
    | .obj o => o.individualCount
    | _ => pyOr r.individualCount (pyOr r.quantity r.countField)
  -- verification status
  let verification : PyV :=
    match r.identification with
    | .obj ident =>
        if truthy ident.verified then .vStr "verified"
        else if truthy ident.uncertainIdentification then .vStr "uncertain"
        else .vStr "unverified"
    | _ => pyOr r.verificationStatus r.status
  -- habitat
  let habitatVal : PyV := pyOr r.habitat (pyOr r.biotope r.environment)
  -- coordinate uncertainty
  let uncertaintyVal : PyV :=
    match r.location with
    | .obj loc => loc.coordinateUncertaintyInMeters
    | _ => pyOr r.coordinateUncertaintyInMeters r.uncertainty
  some {
    id := recId
    observation_date := obsDate
    species_name := species.1
    species_scientific := species.2
    latitude := latOpt
    longitude := lonOpt
    location_name := locName
    observer_name := observerName
    quantity :=
      match quantityVal with
      | .vNone => none
      | v => pyIntOpt v
    verification_status := verification
    habitat := habitatVal
    coordinate_uncertainty :=
      match uncertaintyVal with
      | .vNone => none
      | v => pyFloatNonNone v
    api_source := "artportalen" }

/-! ## Fetch responses and the storage coverage check -/

/-- An API response dictionary as consumed by `process_date_range`:
`hasError` models the presence of an `"error"` key, `results` the
record list, `count`/`totalCount` the two count keys. -/
structure Page where
  hasError : Bool
  results : List RawRecord
  count : Option Nat
  totalCount : Option Nat
deriving Repr

/-- The caller-supplied fetch function
`(start_date, end_date, offset, limit) -> response`; `.error ()` models
a raised exception. -/
def FetchFn : Type := CalDate → CalDate → Nat → Nat → Except Unit Page

/-- `response.get("count") or response.get("totalCount", 0)`. -/
def pageCount (p : Page) : Nat :=
  match p.count with
  | some n => if n == 0 then p.totalCount.getD 0 else n
  | none => p.totalCount.getD 0

/-- `IngestionPipeline.check_existing_data`: the storage `COUNT(*)`
query is a parameter (`.error ()` a raised exception, `.ok none` an
empty `fetchone`, `.ok (some n)` a returned count row); the method
returns `result[0] > 0 if result else False` and `False` on any
exception. -/
def checkExistingData (connQuery : DT → DT → Except Unit (Option Int))
    (s e : DT) : Bool :=
  match connQuery s e with
  | .ok (some n) => decide (0 < n)
  | .ok none => false
  | .error _ => false

/-! ## Chunk planning: `get_date_chunks`, the splitters and
`recursive_split_chunk`

Each `while` loop of the source is embedded fuel-indexed: `none` means
the fuel ran out, i.e. the Python loop did not terminate within that
many iterations.  `split_date_range_into_days` genuinely fails to
terminate on midnight datetimes, so no uniform fuel bound exists. -/

/-- The chunk disposition recorded by `recursive_split_chunk`. -/
inductive Dispo where
  | skip
  | process
deriving DecidableEq, Repr

abbrev Chunk := DT × DT × Dispo

/-- `current.replace(year=y+1, month=1, day=1)` when December, else
`current.replace(month=m+1, day=1)`; the time of day is preserved. -/
def nextMonthDT (t : DT) : DT :=
  if t.date.m == 12 then ⟨⟨t.date.y + 1, 1, 1⟩, t.tod⟩
  else ⟨⟨t.date.y, t.date.m + 1, 1⟩, t.tod⟩

/-- `IngestionPipeline.get_date_chunks`: monthly chunks, looping while
`current < end_date`. -/
def getDateChunksFuel : Nat → DT → DT → Option (List (DT × DT))
  | fuel, cur, e =>
    if dtLtb cur e then
      match fuel with
      | 0 => none
      | f + 1 =>
        let nm := nextMonthDT cur
        let chunkEnd := dtMin nm.predDay e
        (getDateChunksFuel f nm e).map (fun rest => (cur, chunkEnd) :: rest)
    else some []

/-- `IngestionPipeline.split_date_range_into_weeks`: 7-day chunks,
looping while `current < end_date`. -/
def weeklySplitFuel : Nat → DT → DT → Option (List (DT × DT))
  | fuel, cur, e =>
    if dtLtb cur e then
      match fuel with
      | 0 => none
      | f + 1 =>
        let weekEnd := dtMin (cur.addDays 6) e
        (weeklySplitFuel f (weekEnd.addDays 1) e).map (fun rest => (cur, weekEnd) :: rest)
    else some []

/-- `IngestionPipeline.split_date_range_into_days`: daily chunks,
looping while `current <= end_date`; `current` advances to
`(chunk_end + timedelta(seconds=1)).replace(hour=0, minute=0,
second=0)`. -/
def daysSplitFuel : Nat → DT → DT → Option (List (DT × DT))
  | fuel, cur, e =>
    if dtLeb cur e then
      match fuel with
      | 0 => none
      | f + 1 =>
        let chunkEnd := dtMin cur.endOfDay e
        (daysSplitFuel f chunkEnd.addSecond.floorDay e).map
          (fun rest => (cur, chunkEnd) :: rest)
    else some []

/-- `recursive_split_chunk` inside `process_date_range`: probe with the
same fetch function at offset 0, limit 1000; split into weeks when the
probed count exceeds 10,000 and the chunk spans more than 7 days, into
days when it spans 2–7 days; keep the chunk on a probe exception or a
count within the limit. -/
def recursiveSplitFuel (probe : FetchFn) (skipExisting : Bool)
    (connQuery : DT → DT → Except Unit (Option Int)) (autoSplit : Bool) :
    Nat → DT → DT → Option (List Chunk)
  | 0, _, _ => none
  | f + 1, s, e =>
    if skipExisting && checkExistingData connQuery s e then some [(s, e, .skip)]
    else if autoSplit then
      match probe s.date e.date 0 1000 with
      | .error _ => some [(s, e, .process)]
      | .ok page =>
        let totalCount := pageCount page
        if 10000 < totalCount then
          let duration := diffDays e s + 1
          if 7 < duration then
            match weeklySplitFuel f s e with
            | none => none
            | some weeks =>
              (weeks.mapM (fun c =>
                recursiveSplitFuel probe skipExisting connQuery autoSplit f c.1 c.2)).map
                List.flatten
          else if 1 < duration then
            match daysSplitFuel f s e with
            | none => none
            | some days =>
              (days.mapM (fun c =>
                recursiveSplitFuel probe skipExisting connQuery autoSplit f c.1 c.2)).map
                List.flatten
          else some [(s, e, .process)]
        else some [(s, e, .process)]
    else some [(s, e, .process)]

/-- The planning phase of `process_date_range`: monthly chunks, each
expanded by `recursive_split_chunk`. -/
def planFuel (fuel : Nat) (fetchFn : FetchFn) (skipExisting : Bool)
    (connQuery : DT → DT → Except Unit (Option Int)) (autoSplit : Bool)
    (start e : DT) : Option (List Chunk) := do
  let monthly ← getDateChunksFuel fuel start e
  let parts ← monthly.mapM (fun c =>
    recursiveSplitFuel fetchFn skipExisting connQuery autoSplit fuel c.1 c.2)
  pure parts.flatten

/-! ## The pagination loop of `process_date_range` -/

/-- Has the optional `max_records` cap been reached? -/
def maxReachedB (maxRecords : Option Nat) (len : Nat) : Bool :=
  match maxRecords with
  | some mr => decide (mr ≤ len)
  | none => false

/-- The `max_records` truncation of a fetched page: `None` when the cap
is already met (`remaining <= 0`, the loop breaks without touching the
page), otherwise the page cut down to `records[:remaining]`. -/
def truncOf (maxRecords : Option Nat) (accLen : Nat)
    (results : List RawRecord) : Option (List RawRecord) :=
  match maxRecords with
  | none => some results
  | some mr => if mr ≤ accLen then none else some (results.take (mr - accLen))

/-- One run of the inner `while True` pagination loop, from a given
`offset` and accumulator.  `fetch` is the fetch function already applied
to the chunk dates (page size 1000, per-query ceiling 10,000 as
hard-coded in the source).  Returns the outcome (`.error ()` when the
loop re-raises a first-page failure) together with a trace of the
issued requests: `(offset, none)` for a request that raised or returned
an `"error"` response, `(offset, some contributed)` for a successful
request and the records it contributed to the accumulator. -/
def fetchPagesAux (fetch : Nat → Except Unit Page) (maxRecords : Option Nat) :
    Nat → List RawRecord → Nat →
      Except Unit (List RawRecord) × List (Nat × Option (List RawRecord))
  | fuel, acc, offset =>
  if 10000 < offset + 1000 then (.ok acc, [])
  else
    match fetch offset with
    | .error _ =>
        if offset = 0 then (.error (), [(offset, none)])
        else (.ok acc, [(offset, none)])
    | .ok page =>
      if page.hasError then
        if offset = 0 then (.error (), [(offset, none)])
        else (.ok acc, [(offset, none)])
      else
        match truncOf maxRecords acc.length page.results with
        | none => (.ok acc, [(offset, some [])])
        | some contributed =>
          let acc2 := acc ++ contributed
          if contributed.isEmpty then (.ok acc2, [(offset, some contributed)])
          else if contributed.length < 1000 then
            (.ok acc2, [(offset, some contributed)])
          else if maxReachedB maxRecords acc2.length then
            (.ok acc2, [(offset, some contributed)])
          else if 10000 ≤ acc2.length then
            (.ok acc2, [(offset, some contributed)])
          else
            match fuel with
            | 0 => (.ok acc2, [(offset, some contributed)])
            | f + 1 =>
              let rest := fetchPagesAux fetch maxRecords f acc2 (offset + contributed.length)
              (rest.1, (offset, some contributed) :: rest.2)

/-- The whole pagination loop for one chunk.  The loop always terminates
— a continuing iteration adds at least the page size 1000 to `offset`
and the ceiling guard stops at 10,000 — so at most 10 iterations run;
the structural counter 10 therefore never runs out (`fetchPagesAux` is
proved never to reach its counter-exhaustion arm from this entry
point). -/
def fetchPages (fetch : Nat → Except Unit Page) (maxRecords : Option Nat) :
    Except Unit (List RawRecord) × List (Nat × Option (List RawRecord)) :=
  fetchPagesAux fetch maxRecords 10 [] 0

/-! ## `ingest_batch` retry logic -/

/-- Pipeline configuration (`IngestionPipeline.__init__` defaults). -/
structure PipeCfg where
  batchSize : Nat := 1000
  maxRetries : Nat := 3
  retryDelay : Rat := 1
deriving DecidableEq, Repr

/-- `IngestionPipeline.ingest_batch` from a given `retry_count`.
`attemptOk k` tells whether the `executemany`/`commit` at retry attempt
`k` succeeds (the database is external nondeterminism).  Returns
`(success, sleeps, delta_total_ingested, delta_total_failed)` where
`sleeps` lists the durations passed to `time.sleep` before each retry —
the source sleeps `retry_delay * (retry_count + 1)`. -/
def ingestBatchAux (cfg : PipeCfg) (attemptOk : Nat → Bool) (nrecs : Nat) :
    Nat → Nat → Bool × List Rat × Nat × Nat
  | retry, left =>
    if nrecs = 0 then (true, [], 0, 0)
    else if attemptOk retry then (true, [], nrecs, 0)
    else
      -- `left = max_retries - retry_count`, so `retry_count < max_retries`
      -- is exactly `0 < left`
      match left with
      | l + 1 =>
        let rest := ingestBatchAux cfg attemptOk nrecs (retry + 1) l
        (rest.1, cfg.retryDelay * (retry + 1) :: rest.2.1, rest.2.2)
      | 0 => (false, [], 0, nrecs)

/-- `ingest_batch` as called by the pipeline (retry count 0). -/
def ingestBatch (cfg : PipeCfg) (attemptOk : Nat → Bool)
    (records : List DbRecord) : Bool × List Rat × Nat × Nat :=
  ingestBatchAux cfg attemptOk records.length 0 cfg.maxRetries

/-! ## The chunk-processing loop and statistics of `process_date_range` -/

/-- The dictionary returned by `process_date_range`. -/
structure RunStats where
  success : Bool
  totalChunks : Nat
  processedChunks : Nat
  skippedChunks : Nat
  totalIngested : Nat
  totalFailed : Nat
deriving DecidableEq, Repr

/-- `[records[i:i+n] for i in range(0, len(records), n)]`, the batching
of the write phase. -/
def batchesOf (n : Nat) (l : List DbRecord) : List (List DbRecord) :=
  (List.range ((l.length + n - 1) / n)).map (fun i => ((l.drop (i * n)).take n))

/-- Mutable loop state of `process_date_range`: processed chunks,
skipped chunks, the instance accumulators `total_ingested` and
`total_failed`, and a running batch index used to address the upsert
oracle. -/
structure LoopState where
  processed : Nat
  skipped : Nat
  ingested : Nat
  failed : Nat
  batchIdx : Nat
deriving DecidableEq, Repr

/-- One iteration of the chunk loop of `process_date_range`. -/
def processChunkStep (cfg : PipeCfg) (hashFn : RawRecord → Int)
    (fetchFn : FetchFn) (maxRecords : Option Nat)
    (upsertOk : Nat → Nat → Bool) (st : LoopState) (c : Chunk) : LoopState :=
  match c.2.2 with
  | .skip =>
      { st with skipped := st.skipped + 1, processed := st.processed + 1 }
  | .process =>
    let res := fetchPages (fun off => fetchFn c.1.date c.2.1.date off 1000) maxRecords
    match res.1 with
    | .error _ =>
        -- first-page failure: the chunk fails, the loop continues
        { st with processed := st.processed + 1, failed := st.failed + 1 }
    | .ok allRecords =>
      if allRecords.isEmpty then { st with processed := st.processed + 1 }
      else
        let dbRecords := allRecords.filterMap (transform hashFn)
        let afterIngest :=
          (batchesOf cfg.batchSize dbRecords).foldl
            (fun s batch =>
              let r := ingestBatch cfg (upsertOk s.batchIdx) batch
              { s with
                ingested := s.ingested + r.2.2.1
                failed := s.failed + r.2.2.2
                batchIdx := s.batchIdx + 1 })
            st
        { afterIngest with processed := afterIngest.processed + 1 }

/-- The final success computation of `process_date_range`:
`success_rate = (processed - skipped) / max(total - skipped, 1)` when
`total > skipped` else `1.0`, and `success = success_rate >= 0.8 or
skipped == total`. -/
def runSuccess (processed skipped total : Nat) : Bool :=
  let denom : Int := (total : Int) - (skipped : Int)
  let rate : Rat :=
    if skipped < total then
      (((processed : Int) - (skipped : Int) : Int) : Rat) /
        (((if denom < 1 then 1 else denom) : Int) : Rat)
    else 1
  decide ((4/5 : Rat) ≤ rate) || skipped == total

/-- `IngestionPipeline.process_date_range`: plan, process every chunk,
and compute the returned statistics dictionary, starting from the
instance accumulators `ingested0`/`failed0` (they are initialized to 0
by `__init__` and never reset by `process_date_range`). -/
def processDateRangeFuel (fuel : Nat) (cfg : PipeCfg)
    (ingested0 failed0 : Nat) (hashFn : RawRecord → Int) (fetchFn : FetchFn)
    (connQuery : DT → DT → Except Unit (Option Int)) (skipExisting : Bool)
    (maxRecords : Option Nat) (autoSplit : Bool) (upsertOk : Nat → Nat → Bool)
    (start e : DT) : Option RunStats := do
  let chunks ← planFuel fuel fetchFn skipExisting connQuery autoSplit start e
  let totalChunks := chunks.length
  let final := chunks.foldl
    (processChunkStep cfg hashFn fetchFn maxRecords upsertOk)
    ⟨0, 0, ingested0, failed0, 0⟩
  pure {
    success := runSuccess final.processed final.skipped totalChunks
    totalChunks := totalChunks
    processedChunks := final.processed
    skippedChunks := final.skipped
    totalIngested := final.ingested
    totalFailed := final.failed }

/-! ## The mixed-range merge path of `UnifiedAPIClient.search_occurrences`
and `_deduplicate_results` from `app.py` -/

/-- A result record as handled by the merge and deduplication code:
exactly the keys those functions read (numeric coordinate fields as
rationals, date fields as ISO strings, `year`/`month`/`day` with the
`.get(k, 0)` default), plus an opaque `rest` standing for the remainder
of the record dictionary, which neither function inspects. -/
structure MergeRec where
  eventDate : Option String
  dateField : Option String
  year : Int
  month : Int
  day : Int
  latitude : Option Rat
  longitude : Option Rat
  decimalLatitude : Option Rat
  decimalLongitude : Option Rat
  species : Option String
  scientificName : Option String
  rest : Nat
deriving DecidableEq, Repr

/-- Python `a or b` on optional floats (`None` and `0.0` are falsy). -/
def orQ (a b : Option Rat) : Option Rat :=
  match a with
  | some q => if q == 0 then b else some q
  | none => b

/-- Python `a or b` on optional strings (`None` and `""` are falsy). -/
def orS (a b : Option String) : Option String :=
  match a with
  | some s => if s == "" then b else some s
  | none => b

/-- Python `str` of an optional string (`str(None) = "None"`). -/
def strOfOptS : Option String → String
  | none => "None"
  | some s => s

/-- The sort key of the merge path:
`x.get("eventDate") or x.get("year", 0) * 10000 + x.get("month", 0) *
100 + x.get("day", 0)` — a string when `eventDate` is truthy, else an
int. -/
inductive SortKey where
  | str (s : String)
  | num (n : Int)
deriving DecidableEq, Repr

def sortKeyOf (r : MergeRec) : SortKey :=
  match r.eventDate with
  | some s => if s == "" then .num (r.year * 10000 + r.month * 100 + r.day) else .str s
  | none => .num (r.year * 10000 + r.month * 100 + r.day)

/-- Comparison of two sort keys; `none` models the `TypeError` Python
raises when comparing a str with an int. -/
def keyLeb : SortKey → SortKey → Option Bool
  | .str a, .str b => some (decide (a ≤ b))
  | .num a, .num b => some (decide (a ≤ b))
  | _, _ => none

/-- Stable insertion of `x` (arriving after every element of the
accumulator) into a descending-sorted list: `x` goes after every
element whose key is at least its own, which reproduces the output of
Python's stable `list.sort(key=..., reverse=True)`. -/
def sortDescInsert (x : MergeRec) : List MergeRec → Except Unit (List MergeRec)
  | [] => .ok [x]
  | y :: ys =>
    match keyLeb (sortKeyOf x) (sortKeyOf y) with
    | none => .error ()
    | some le =>
        if le then (sortDescInsert x ys).map (fun r => y :: r)
        else .ok (x :: y :: ys)

/-- `merged_results.sort(key=..., reverse=True)`: a stable descending
sort, raising (`.error ()`) when the keys mix strings and ints. -/
def sortDesc (l : List MergeRec) : Except Unit (List MergeRec) :=
  l.foldlM (fun acc x => sortDescInsert x acc) []

/-- A sub-query result dictionary as consumed by the merge block:
`isError` models the presence of an `"error"` key. -/
structure QueryResult where
  isError : Bool
  results : List MergeRec
  count : Nat
deriving Repr

/-- The merge block of the mixed-range path of
`UnifiedAPIClient.search_occurrences` (concatenate the non-error
sub-results, sort by event date descending, apply offset then limit —
each only when truthy).  `.error ()` models an exception inside the
block, after which the source falls back to an API-only query. -/
def mixedMerge (dbResult apiResult : QueryResult) (offset limit : Nat) :
    Except Unit (List MergeRec × Nat) :=
  let base : List MergeRec :=
    (if dbResult.isError then [] else dbResult.results) ++
      (if apiResult.isError then [] else apiResult.results)
  let mergedCount :=
    (if dbResult.isError then 0 else dbResult.count) +
      (if apiResult.isError then 0 else apiResult.count)
  match sortDesc base with
  | .error _ => .error ()
  | .ok sorted =>
    let afterOffset := if offset ≠ 0 then sorted.drop offset else sorted
    let afterLimit := if limit ≠ 0 then afterOffset.take limit else afterOffset
    .ok (afterLimit, mergedCount)

/-- Round-half-to-even to an integer, Python's `round` on exact values. -/
def roundHalfEven (x : Rat) : Int :=
  let f := x.floor
  let r := x - (f : Rat)
  if r < 1/2 then f
  else if 1/2 < r then f + 1
  else if 2 ∣ f then f else f + 1

/-- `round(q, 4)`. -/
def round4 (q : Rat) : Rat := ((roundHalfEven (q * 10000) : Int) : Rat) / 10000

/-- The composite deduplication key of `_deduplicate_results`:
`(round(lat, 4), round(lon, 4), str(event_date), str(species))` when
both coordinates are non-`None` after the `or`-fallbacks, else
`(str(event_date), str(species))`. -/
inductive CKey where
  | coord (lat lon : Rat) (d sp : String)
  | nocoord (d sp : String)
deriving DecidableEq, Repr

def compositeKey (r : MergeRec) : CKey :=
  let lat := orQ r.latitude r.decimalLatitude
  let lon := orQ r.longitude r.decimalLongitude
  let eventDate := orS r.eventDate r.dateField
  let sp := strOfOptS (orS (orS r.species r.scientificName) (some ""))
  match lat, lon with
  | some la, some lo => .coord (round4 la) (round4 lo) (strOfOptS eventDate) sp
  | _, _ => .nocoord (strOfOptS eventDate) sp

/-- The inner loop of `_deduplicate_results` over one result list:
keep each record whose key is not in `seen`, adding its key. -/
def dedupScan (seen : List CKey) : List MergeRec → List MergeRec × List CKey
  | [] => ([], seen)
  | r :: rs =>
    let k := compositeKey r
    if k ∈ seen then dedupScan seen rs
    else
      let rest := dedupScan (k :: seen) rs
      (r :: rest.1, rest.2)

/-- The outer loop of `_deduplicate_results` over the list of result
lists, threading the `seen` set. -/
def dedupLists (seen : List CKey) : List (List MergeRec) → List MergeRec
  | [] => []
  | l :: ls =>
    let scanned := dedupScan seen l
    scanned.1 ++ dedupLists scanned.2 ls

/-- `_deduplicate_results(results_list)`. -/
def dedupResults (lists : List (List MergeRec)) : List MergeRec :=
  dedupLists [] lists

/-! ## The storage upsert (`ingest_batch`'s SQL against DuckDB)

`ingest_batch` executes `INSERT INTO observations ... VALUES ... ON
CONFLICT (id) DO UPDATE SET <every column except id and created_at>`
with `created_at = updated_at = datetime.now()` in the inserted values.
The table is modelled as an association list from id to row, in
insertion order; `executemany` applies the statement to each record in
order. -/

/-- A stored `observations` row.  `created_at`/`updated_at` carry the
`datetime.now()` timestamp, modelled as an opaque `Nat`. -/
structure Row where
  observation_date : Option PyV
  species_name : PyV
  species_scientific : PyV
  latitude : Option Rat
  longitude : Option Rat
  location_name : PyV
  observer_name : PyV
  quantity : Option Int
  verification_status : PyV
  habitat : PyV
  coordinate_uncertainty : Option Rat
  api_source : String
  created_at : Nat
  updated_at : Nat
deriving DecidableEq, Repr

/-- The row written for a record, given the `updated_at` timestamp and
the `created_at` value (the existing one on conflict, `now` on insert). -/
def rowOfRecord (rec : DbRecord) (now created : Nat) : Row where
  observation_date := rec.observation_date
  species_name := rec.species_name
  species_scientific := rec.species_scientific
  latitude := rec.latitude
  longitude := rec.longitude
  location_name := rec.location_name
  observer_name := rec.observer_name
  quantity := rec.quantity
  verification_status := rec.verification_status
  habitat := rec.habitat
  coordinate_uncertainty := rec.coordinate_uncertainty
  api_source := rec.api_source
  created_at := created
  updated_at := now

abbrev Table := List (PyV × Row)

def findRow (t : Table) (id : PyV) : Option Row :=
  (t.find? (fun kv => kv.1 == id)).map (fun kv => kv.2)

/-- One `INSERT ... ON CONFLICT (id) DO UPDATE` execution: overwrite
every column except `id` and `created_at` when the id exists, append a
fresh row otherwise. -/
def upsertRow (t : Table) (now : Nat) (rec : DbRecord) : Table :=
  match findRow t rec.id with
  | some _ =>
      t.map (fun kv =>
        if kv.1 == rec.id then (kv.1, rowOfRecord rec now kv.2.created_at) else kv)
  | none => t ++ [(rec.id, rowOfRecord rec now now)]

/-- `executemany` over a batch: upsert each record in order, all with
the same `now` timestamp. -/
def upsertBatch (t : Table) (now : Nat) (recs : List DbRecord) : Table :=
  recs.foldl (fun acc r => upsertRow acc now r) t

/-- A row with its `updated_at` column masked, for content comparisons
that ignore the refreshed timestamp. -/
def stripUpdated (r : Row) : Row := { r with updated_at := 0 }

/-! ## Concrete inputs used by the claim instances -/

/-- A stand-in for Python's opaque `hash(str(record))`. -/
def hashZero : RawRecord → Int := fun _ => 0

/-- A well-formed raw record: a parseable flat `eventDate` and numeric
coordinates. -/
def rawOk : RawRecord :=
  { emptyRaw with
    eventDate := some (.vStr "2024-01-15")
    decimalLatitude := .vInt 57
    decimalLongitude := .vInt 11 }

/-- A transformed record (the transform of `rawOk`). -/
def dbRec0 : DbRecord where
  id := .vStr "artportalen_0"
  observation_date := some (.vDate ⟨2024, 1, 15⟩)
  species_name := .vNone
  species_scientific := .vNone
  latitude := some ((57 : Int) : Rat)
  longitude := some ((11 : Int) : Rat)
  location_name := .vNone
  observer_name := .vNone
  quantity := none
  verification_status := .vNone
  habitat := .vNone
  coordinate_uncertainty := none
  api_source := "artportalen"

/-- A fetch function whose every call raises. -/
def fetchErr : FetchFn := fun _ _ _ _ => .error ()

/-- A fetch function returning one page of five good records. -/
def fetchFive : FetchFn := fun _ _ off _ =>
  .ok ⟨false, if off = 0 then List.replicate 5 rawOk else [], some 5, none⟩

/-- A fetch function reporting a constant total count. -/
def probeConst (n : Nat) : FetchFn := fun _ _ _ _ => .ok ⟨false, [], some n, none⟩

/-- A fetch function reporting 20,000 records for February 2024 as a
whole and 5 for any sub-range. -/
def probeFebBig : FetchFn := fun s e _ _ =>
  .ok ⟨false, [],
    some (if s == (⟨2024, 2, 1⟩ : CalDate) && e == (⟨2024, 2, 29⟩ : CalDate)
      then 20000 else 5), none⟩

/-- A storage whose coverage query finds no rows. -/
def connNone : DT → DT → Except Unit (Option Int) := fun _ _ => .ok none

/-- A storage whose coverage query finds rows. -/
def connHasData : DT → DT → Except Unit (Option Int) := fun _ _ => .ok (some 5)

/-- A storage whose coverage query raises. -/
def connRaise : DT → DT → Except Unit (Option Int) := fun _ _ => .error ()

/-- A raw record carrying the date string `s` in the `i`-th supported
location (0 = `event.startDate`, 1 = `event.endDate`, 2 = `eventDate`,
3 = `observationDate`, 4 = `startDate`, 5 = `date`) and nothing
date-like elsewhere, with valid coordinates. -/
def recDateAt (i : Nat) (s : String) : RawRecord :=
  let base :=
    { emptyRaw with
      decimalLatitude := PyV.vInt 57, decimalLongitude := PyV.vInt 11 }
  match i with
  | 0 => { base with event := .obj ⟨.vStr s, .vNone⟩ }
  | 1 => { base with event := .obj ⟨.vNone, .vStr s⟩ }
  | 2 => { base with eventDate := some (.vStr s) }
  | 3 => { base with observationDate := some (.vStr s) }
  | 4 => { base with startDate := some (.vStr s) }
  | _ => { base with dateField := some (.vStr s) }

/-- A raw record whose `event` key holds a dict without dates — the
shape `{"event": {}, "eventDate": s}` — shadowing a parseable flat
`eventDate`. -/
def recShadowEvent (s : String) : RawRecord :=
  { emptyRaw with
    event := .obj ⟨.vNone, .vNone⟩
    eventDate := some (.vStr s)
    decimalLatitude := PyV.vInt 57
    decimalLongitude := PyV.vInt 11 }

/-- A raw record whose `eventDate` key is present but holds `None`,
shadowing a parseable `observationDate`. -/
def recShadowNone (s : String) : RawRecord :=
  { emptyRaw with
    eventDate := some .vNone
    observationDate := some (.vStr s)
    decimalLatitude := PyV.vInt 57
    decimalLongitude := PyV.vInt 11 }

/-- A raw record carrying `s` in the `i`-th supported date location and
the string `t` in every later one, for the priority-order statement. -/
def recDateFrom (i : Nat) (s t : String) : RawRecord :=
  let base :=
    { emptyRaw with
      decimalLatitude := PyV.vInt 57, decimalLongitude := PyV.vInt 11 }
  match i with
  | 0 => { base with
      event := .obj ⟨.vStr s, .vStr t⟩
      eventDate := some (.vStr t)
      observationDate := some (.vStr t)
      startDate := some (.vStr t)
      dateField := some (.vStr t) }
  | 1 => { base with
      event := .obj ⟨.vNone, .vStr s⟩
      eventDate := some (.vStr t)
      observationDate := some (.vStr t)
      startDate := some (.vStr t)
      dateField := some (.vStr t) }
  | 2 => { base with
      eventDate := some (.vStr s)
      observationDate := some (.vStr t)
      startDate := some (.vStr t)
      dateField := some (.vStr t) }
  | 3 => { base with
      observationDate := some (.vStr s)
      startDate := some (.vStr t)
      dateField := some (.vStr t) }
  | 4 => { base with
      startDate := some (.vStr s)
      dateField := some (.vStr t) }
  | _ => { base with dateField := some (.vStr s) }

/-- A storage-side record of the mixed merge: coordinates with a small
jitter below the 4-decimal rounding tolerance of the API record below. -/
def mrecDb : MergeRec where
  eventDate := none
  dateField := none
  year := 2024
  month := 1
  day := 10
  latitude := some (577/10 + 1/1000000)
  longitude := some (119/10)
  decimalLatitude := none
  decimalLongitude := none
  species := some "Koltrast"
  scientificName := some "Turdus merula"
  rest := 0

/-- An API-side record of the same physical sighting: identical
composite key (coordinates within the rounding tolerance), different
payload. -/
def mrecApi : MergeRec where
  eventDate := none
  dateField := none
  year := 2024
  month := 1
  day := 10
  latitude := some (577/10)
  longitude := some (119/10)
  decimalLatitude := none
  decimalLongitude := none
  species := some "Koltrast"
  scientificName := none
  rest := 1

/-! ## Order toolkit -/

theorem calLtb_iff (a b : CalDate) :
    calLtb a b = true ↔
      a.y < b.y ∨ (a.y = b.y ∧ (a.m < b.m ∨ (a.m = b.m ∧ a.d < b.d))) := by
  simp [calLtb]

theorem calLeb_iff (a b : CalDate) :
    calLeb a b = true ↔ calLtb a b = true ∨ a = b := by
  simp [calLeb]

theorem cal_eq_iff (a b : CalDate) : a = b ↔ a.y = b.y ∧ a.m = b.m ∧ a.d = b.d := by
  cases a; cases b; simp

theorem dtLtb_iff (a b : DT) :
    dtLtb a b = true ↔ calLtb a.date b.date = true ∨ (a.date = b.date ∧ a.tod < b.tod) := by
  simp [dtLtb]

theorem dtLeb_iff (a b : DT) :
    dtLeb a b = true ↔ dtLtb a b = true ∨ a = b := by
  simp [dtLeb]

theorem dt_eq_iff (a b : DT) : a = b ↔ a.date = b.date ∧ a.tod = b.tod := by
  cases a; cases b; simp

theorem calLtb_trans {a b c : CalDate} (h1 : calLtb a b = true)
    (h2 : calLtb b c = true) : calLtb a c = true := by
  rw [calLtb_iff] at *; omega

theorem calLtb_of_ltb_of_leb {a b c : CalDate} (h1 : calLtb a b = true)
    (h2 : calLeb b c = true) : calLtb a c = true := by
  rw [calLeb_iff] at h2
  rcases h2 with h2 | rfl
  · exact calLtb_trans h1 h2
  · exact h1

theorem calLtb_of_leb_of_ltb {a b c : CalDate} (h1 : calLeb a b = true)
    (h2 : calLtb b c = true) : calLtb a c = true := by
  rw [calLeb_iff] at h1
  rcases h1 with h1 | rfl
  · exact calLtb_trans h1 h2
  · exact h2

theorem calLeb_trans {a b c : CalDate} (h1 : calLeb a b = true)
    (h2 : calLeb b c = true) : calLeb a c = true := by
  rw [calLeb_iff] at *
  rcases h1 with h1 | rfl
  · rcases h2 with h2 | rfl
    · exact Or.inl (calLtb_trans h1 h2)
    · exact Or.inl h1
  · exact h2

theorem calLeb_refl (a : CalDate) : calLeb a a = true := by simp [calLeb]

theorem calLeb_of_ltb {a b : CalDate} (h : calLtb a b = true) : calLeb a b = true := by
  rw [calLeb_iff]; exact Or.inl h

theorem dtLeb_calLeb {a b : DT} (h : dtLeb a b = true) :
    calLeb a.date b.date = true := by
  rw [dtLeb_iff, dtLtb_iff] at h
  rcases h with (h | ⟨h, _⟩) | rfl
  · exact calLeb_of_ltb h
  · rw [h]; exact calLeb_refl _
  · exact calLeb_refl _

theorem dtMin_le_left (a b : DT) : dtLeb (dtMin a b) a = true := by
  unfold dtMin
  split
  · simp [dtLeb]
  · rename_i h
    rw [dtLeb_iff, dtLtb_iff] at *
    rw [calLtb_iff] at *
    rw [dt_eq_iff, cal_eq_iff] at *
    push_neg at h
    omega

theorem dtMin_le_right (a b : DT) : dtLeb (dtMin a b) b = true := by
  unfold dtMin
  split
  · assumption
  · simp [dtLeb]

theorem dtMin_cases (a b : DT) : dtMin a b = a ∨ dtMin a b = b := by
  unfold dtMin; split <;> simp

theorem le_dtMin {a b c : DT} (h1 : dtLeb c a = true) (h2 : dtLeb c b = true) :
    dtLeb c (dtMin a b) = true := by
  rcases dtMin_cases a b with h | h <;> rw [h] <;> assumption

/-! ## Basic calendar lemmas -/

theorem daysInMonth_ge {y : Int} {m : Nat} (h1 : 1 ≤ m) (h2 : m ≤ 12) :
    28 ≤ daysInMonth y m := by
  unfold daysInMonth
  split_ifs <;> omega

theorem lt_succDay (a : CalDate) : calLtb a (succDay a) = true := by
  unfold succDay
  split_ifs <;> (rw [calLtb_iff]; simp)

/-- For valid dates the calendar successor is the least strictly larger
date. -/
theorem succDay_le_of_lt {a b : CalDate} (ha : a.Valid) (hb : b.Valid)
    (h : calLtb a b = true) : calLeb (succDay a) b = true := by
  obtain ⟨ha1, ha2, ha3, ha4⟩ := ha
  obtain ⟨hb1, hb2, hb3, hb4⟩ := hb
  rw [calLtb_iff] at h
  unfold succDay
  split_ifs with h1 h2 <;>
    (rw [calLeb_iff, calLtb_iff, cal_eq_iff]; simp) <;>
    rcases h with h | ⟨hy, h | ⟨hm, hd⟩⟩ <;>
    first
    | omega
    | (rw [← hy, ← hm] at hb4; omega)

theorem succDay_valid {a : CalDate} (ha : a.Valid) : (succDay a).Valid := by
  obtain ⟨ha1, ha2, ha3, ha4⟩ := ha
  have h28a : 1 ≤ a.m + 1 → a.m + 1 ≤ 12 → 28 ≤ daysInMonth a.y (a.m + 1) :=
    fun p q => daysInMonth_ge p q
  have h28b : 28 ≤ daysInMonth (a.y + 1) 1 := daysInMonth_ge (by omega) (by omega)
  unfold succDay
  split_ifs with h1 h2 <;>
    (constructor <;> simp [CalDate.Valid] <;> omega)

/-- `x` strictly above `a` means `x` at least the successor of `a`
(valid dates): the contrapositive companion of `succDay_le_of_lt`. -/
theorem succDay_le_iff_lt {a x : CalDate} (ha : a.Valid) (hx : x.Valid) :
    calLeb (succDay a) x = true ↔ calLtb a x = true := by
  constructor
  · intro h
    exact calLtb_of_ltb_of_leb (lt_succDay a) h
  · exact succDay_le_of_lt ha hx

theorem dtLeb_parts {a b : DT} :
    dtLeb a b = true ↔
      calLtb a.date b.date = true ∨ (a.date = b.date ∧ a.tod ≤ b.tod) := by
  rw [dtLeb_iff, dtLtb_iff, dt_eq_iff]
  constructor
  · rintro ((h | ⟨h1, h2⟩) | ⟨h1, h2⟩)
    · exact Or.inl h
    · exact Or.inr ⟨h1, Nat.le_of_lt h2⟩
    · exact Or.inr ⟨h1, Nat.le_of_eq h2⟩
  · rintro (h | ⟨h1, h2⟩)
    · exact Or.inl (Or.inl h)
    · rcases Nat.lt_or_ge a.tod b.tod with h3 | h3
      · exact Or.inl (Or.inr ⟨h1, h3⟩)
      · exact Or.inr ⟨h1, Nat.le_antisymm h2 h3⟩

theorem calLtb_irrefl (a : CalDate) : calLtb a a = false := by
  by_contra h
  rw [Bool.not_eq_false, calLtb_iff] at h
  omega

theorem dtLeb_refl (a : DT) : dtLeb a a = true := by
  rw [dtLeb_iff]; exact Or.inr rfl

theorem dtLeb_mk_of_calLeb {a b : CalDate} {t : Nat} (h : calLeb a b = true) :
    dtLeb (⟨a, t⟩ : DT) ⟨b, t⟩ = true := by
  rw [dtLeb_parts]
  rcases calLeb_iff a b |>.mp h with h | rfl
  · exact Or.inl h
  · exact Or.inr ⟨rfl, Nat.le_refl _⟩

/-! ## Non-termination of `split_date_range_into_days` on midnight
datetimes

When `current` and `end_date` are both at midnight (as every caller of
the pipeline constructs them), the final iteration of
`split_date_range_into_days` computes `chunk_end = end_date` and resets
`current = (end_date + 1s).replace(hour=0, minute=0, second=0) =
end_date`, so the `while current <= end_date` loop never exits: the
fuel-indexed embedding returns `none` for every fuel. -/
theorem daysSplitFuel_midnight_none :
    ∀ (fuel : Nat) (cur e : DT), cur.tod = 0 → e.tod = 0 → dtLeb cur e = true →
      cur.date.Valid → e.date.Valid → daysSplitFuel fuel cur e = none := by
  intro fuel
  induction fuel with
  | zero =>
    intro cur e h1 h2 hle hv1 hv2
    simp [daysSplitFuel, hle]
  | succ f ih =>
    intro cur e h1 h2 hle hv1 hv2
    obtain ⟨cd, ct⟩ := cur
    obtain ⟨ed, et⟩ := e
    simp only at h1 h2 hv1 hv2
    subst h1 h2
    rcases dtLeb_parts.mp hle with hlt | ⟨heq, _⟩
    · -- strictly earlier day: the chunk covers the day, current moves to
      -- the next midnight
      simp only at hlt
      have hmin : dtMin (DT.endOfDay ⟨cd, 0⟩) ⟨ed, 0⟩ = ⟨cd, 86399⟩ := by
        unfold dtMin DT.endOfDay
        rw [if_pos (dtLeb_parts.mpr (Or.inl hlt))]
      simp only [daysSplitFuel, hle, if_true, hmin]
      have hnext : (DT.addSecond ⟨cd, 86399⟩).floorDay = ⟨succDay cd, 0⟩ := by
        unfold DT.addSecond DT.floorDay
        norm_num
      rw [hnext]
      have hrec : daysSplitFuel f ⟨succDay cd, 0⟩ ⟨ed, 0⟩ = none := by
        apply ih _ _ rfl rfl _ (succDay_valid hv1) hv2
        exact dtLeb_mk_of_calLeb (succDay_le_of_lt hv1 hv2 hlt)
      rw [hrec]
      rfl
    · -- same day at midnight: chunk_end = end_date, current stays put
      simp only at heq
      subst heq
      have hmin : dtMin (DT.endOfDay ⟨cd, 0⟩) ⟨cd, 0⟩ = ⟨cd, 0⟩ := by
        unfold dtMin DT.endOfDay
        rw [if_neg]
        intro hcon
        rcases dtLeb_parts.mp hcon with h | ⟨_, h⟩
        · simp only at h
          rw [calLtb_irrefl] at h
          exact Bool.false_ne_true h
        · simp only at h
          omega
      simp only [daysSplitFuel, hle, if_true, hmin]
      have hnext : (DT.addSecond ⟨cd, 0⟩).floorDay = ⟨cd, 0⟩ := by
        unfold DT.addSecond DT.floorDay
        norm_num
      rw [hnext]
      have hrec : daysSplitFuel f ⟨cd, 0⟩ ⟨cd, 0⟩ = none :=
        ih _ _ rfl rfl (dtLeb_refl _) hv1 hv2
      rw [hrec]
      rfl

/-! ## Generic list lemmas -/

theorem mapM_option_eq_some {α β : Type} (f : α → Option β) :
    ∀ (l : List α) (l2 : List β), l.mapM f = some l2 →
      ∀ b ∈ l2, ∃ a ∈ l, f a = some b := by
  intro l
  induction l with
  | nil =>
    intro l2 h b hb
    simp only [List.mapM_nil, Option.pure_def, Option.some.injEq] at h
    subst h
    simp at hb
  | cons a as ih =>
    intro l2 h b hb
    rw [List.mapM_cons] at h
    cases hfa : f a with
    | none => rw [hfa] at h; simp at h
    | some x =>
      rw [hfa] at h
      cases hxs : as.mapM f with
      | none => rw [hxs] at h; simp at h
      | some xs =>
        rw [hxs] at h
        simp only [Option.pure_def, Option.bind_eq_bind, Option.some_bind,
          Option.some.injEq] at h
        subst h
        rcases List.mem_cons.mp hb with rfl | hmem
        · exact ⟨a, List.mem_cons_self a as, hfa⟩
        · obtain ⟨c, hc, hfc⟩ := ih xs hxs b hmem
          exact ⟨c, List.mem_cons_of_mem a hc, hfc⟩

/-! ## C3: `ingest_batch` retry behaviour -/

/-- When every attempt fails, `ingest_batch` makes one retry per unit of
`left`, sleeping `retry_delay * (retry_count + 1)` before each, and ends
with `(False, total_failed += len(records))`. -/
theorem ingestBatchAux_all_fail (cfg : PipeCfg) (n : Nat) (hn : n ≠ 0) :
    ∀ (left retry : Nat),
      ingestBatchAux cfg (fun _ => false) n retry left =
        (false,
          (List.range left).map
            (fun (k : Nat) => cfg.retryDelay * ((retry : Rat) + (k : Rat) + 1)),
          0, n) := by
  intro left
  induction left with
  | zero =>
    intro retry
    unfold ingestBatchAux
    simp [hn]
  | succ l ih =>
    intro retry
    have hlist :
        cfg.retryDelay * ((retry : Rat) + 1) ::
            (List.range l).map
              (fun (k : Nat) => cfg.retryDelay * (((retry + 1 : Nat) : Rat) + (k : Rat) + 1)) =
          (List.range (l + 1)).map
            (fun (k : Nat) => cfg.retryDelay * ((retry : Rat) + (k : Rat) + 1)) := by
      rw [List.range_succ_eq_map, List.map_cons, List.map_map]
      refine congrArg₂ List.cons (by push_cast; ring) ?_
      apply List.map_congr_left
      intro k _
      simp only [Function.comp_apply]
      push_cast; ring
    unfold ingestBatchAux
    simp only [hn, if_false, Bool.false_eq_true]
    rw [ih (retry + 1)]
    rw [← hlist]

/-- Claim C3: the claim states exponential backoff `retry_delay *
2^attempt`.  The code's comment says "Exponential backoff" but the
implementation sleeps `retry_delay * (retry_count + 1)` — a linear
schedule.  This theorem characterizes an all-failing batch run: up to
`max_retries` retries, a linear sleep schedule, the batch size added to
`total_failed`, and `False` returned without raising; the third retry of
the default configuration sleeps 3 seconds where the claim requires
`1 * 2^2 = 4`. -/
theorem claim3_retry_backoff_is_linear_not_exponential :
    (∀ (cfg : PipeCfg) (recs : List DbRecord), recs ≠ [] →
      ingestBatch cfg (fun _ => false) recs =
        (false,
          (List.range cfg.maxRetries).map
            (fun (k : Nat) => cfg.retryDelay * ((k : Rat) + 1)),
          0, recs.length)) ∧
    (List.range 3).map (fun (k : Nat) => (1 : Rat) * ((k : Rat) + 1)) = [1, 2, 3] ∧
    ((1 : Rat) * 2 ^ 2 ≠ 3) := by
  refine ⟨?_, ?_, by norm_num⟩
  · intro cfg recs hrecs
    unfold ingestBatch
    rw [ingestBatchAux_all_fail cfg recs.length (by simpa using hrecs) cfg.maxRetries 0]
    have hlist :
        (List.range cfg.maxRetries).map
            (fun (k : Nat) => cfg.retryDelay * (((0 : Nat) : Rat) + (k : Rat) + 1)) =
          (List.range cfg.maxRetries).map
            (fun (k : Nat) => cfg.retryDelay * ((k : Rat) + 1)) := by
      apply List.map_congr_left
      intro k _
      push_cast; ring
    rw [hlist]
  · simp [List.range_succ]
    norm_num

/-- Witness for C3 at the default configuration and a one-record batch. -/
theorem claim3_witness :
    ingestBatch ⟨1000, 3, 1⟩ (fun _ => false) [dbRec0] =
      (false, [1, 2, 3], 0, 1) := by
  have h := claim3_retry_backoff_is_linear_not_exponential.1 ⟨1000, 3, 1⟩ [dbRec0]
    (by simp)
  rw [h]
  norm_num [List.range_succ]

/-! ## C10: a failing coverage query never causes a skip -/

/-- Claim C10: when the storage query inside `check_existing_data`
raises, the method returns `False` instead of propagating, and
consequently `recursive_split_chunk` never marks a chunk `skip`: every
emitted chunk has disposition `process`. -/
theorem claim10_coverage_query_failure_means_process :
    ∀ (connQuery : DT → DT → Except Unit (Option Int)),
      (∀ a b, connQuery a b = .error ()) →
      (∀ s e, checkExistingData connQuery s e = false) ∧
      (∀ (probe : FetchFn) (skipE autoSplit : Bool) (fuel : Nat) (s e : DT)
          (l : List Chunk),
          recursiveSplitFuel probe skipE connQuery autoSplit fuel s e = some l →
          ∀ c ∈ l, c.2.2 = Dispo.process) := by
  intro connQuery hq
  have hchk : ∀ s e, checkExistingData connQuery s e = false := by
    intro s e
    unfold checkExistingData
    rw [hq s e]
  refine ⟨hchk, ?_⟩
  intro probe skipE autoSplit fuel
  induction fuel with
  | zero =>
    intro s e l h
    simp [recursiveSplitFuel] at h
  | succ f ih =>
    intro s e l h c hc
    unfold recursiveSplitFuel at h
    rw [hchk s e] at h
    simp only [Bool.and_false, Bool.false_eq_true, if_false] at h
    by_cases hauto : autoSplit
    · rw [if_pos hauto] at h
      cases hprobe : probe s.date e.date 0 1000 with
      | error _ =>
        rw [hprobe] at h
        simp only [Option.some.injEq] at h
        subst h
        simp at hc
        simp [hc]
      | ok page =>
        rw [hprobe] at h
        dsimp only at h
        by_cases hbig : 10000 < pageCount page
        · rw [if_pos hbig] at h
          by_cases h7 : 7 < diffDays e s + 1
          · rw [if_pos h7] at h
            cases hweeks : weeklySplitFuel f s e with
            | none => rw [hweeks] at h; simp at h
            | some weeks =>
              rw [hweeks] at h
              simp only [Option.map_eq_some'] at h
              obtain ⟨parts, hparts, rfl⟩ := h
              rw [List.mem_flatten] at hc
              obtain ⟨part, hpart, hcpart⟩ := hc
              obtain ⟨w, hw, hfw⟩ := mapM_option_eq_some _ weeks parts hparts part hpart
              exact ih w.1 w.2 part hfw c hcpart
          · rw [if_neg h7] at h
            by_cases h1 : 1 < diffDays e s + 1
            · rw [if_pos h1] at h
              cases hdays : daysSplitFuel f s e with
              | none => rw [hdays] at h; simp at h
              | some days =>
                rw [hdays] at h
                simp only [Option.map_eq_some'] at h
                obtain ⟨parts, hparts, rfl⟩ := h
                rw [List.mem_flatten] at hc
                obtain ⟨part, hpart, hcpart⟩ := hc
                obtain ⟨w, hw, hfw⟩ := mapM_option_eq_some _ days parts hparts part hpart
                exact ih w.1 w.2 part hfw c hcpart
            · rw [if_neg h1] at h
              simp only [Option.some.injEq] at h
              subst h
              simp at hc
              simp [hc]
        · rw [if_neg hbig] at h
          simp only [Option.some.injEq] at h
          subst h
          simp at hc
          simp [hc]
    · rw [if_neg hauto] at h
      simp only [Option.some.injEq] at h
      subst h
      simp at hc
      simp [hc]

/-- Witness for C10 with an always-raising storage query. -/
theorem claim10_witness :
    checkExistingData connRaise (midnight 2024 1 1) (midnight 2024 1 31) = false ∧
    ∀ c ∈ [(midnight 2024 1 1, midnight 2024 1 31, Dispo.process)], c.2.2 = Dispo.process := by
  have h := claim10_coverage_query_failure_means_process connRaise (fun _ _ => rfl)
  refine ⟨h.1 _ _, ?_⟩
  exact h.2 fetchErr true true 1 (midnight 2024 1 1) (midnight 2024 1 31) _ rfl

/-! ## C2: chunk failure accounting and the success flag -/

set_option maxRecDepth 100000 in
/-- Claim C2 (code bug): a run whose single chunk fails on its first
page.  The chunk is nevertheless counted in `processed_chunks` (the
failure handler increments it), so the success rate evaluates to 1 and
the run reports `success = true` with `total_failed = 1` — where the
claim (and the source's own docstring, which calls `processed_chunks`
"Number of chunks successfully processed" and the flag "True if most
chunks succeeded") requires `success = false`. -/
theorem claim2_all_chunks_fail_yet_success_true :
    processDateRangeFuel 10 ⟨1000, 3, 1⟩ 0 0 hashZero fetchErr connNone false none true
      (fun _ _ => true) (midnight 2024 1 1) (midnight 2024 1 31) =
      some ⟨true, 1, 1, 0, 0, 1⟩ := by
  have h : processDateRangeFuel 10 ⟨1000, 3, 1⟩ 0 0 hashZero fetchErr connNone false
      none true (fun _ _ => true) (midnight 2024 1 1) (midnight 2024 1 31) =
      some ⟨runSuccess 1 0 1, 1, 1, 0, 0, 1⟩ := rfl
  rw [h, show runSuccess 1 0 1 = true from by norm_num [runSuccess]]

/-! ## C9: run statistics and instance accumulators -/

set_option maxRecDepth 100000 in
/-- Counterexample to claim C9: a first run ingests 5 records; a second
run on the now-covered range with `skip_existing = true`, on the same
pipeline instance (its accumulators start at the first run's values),
reports `skipped_chunks = 1` but `total_ingested = 5`, not the 0 the
claim requires. -/
theorem claim9_counterexample :
    (processDateRangeFuel 10 ⟨1000, 3, 1⟩ 0 0 hashZero fetchFive connNone true none true
        (fun _ _ => true) (midnight 2024 1 1) (midnight 2024 1 31) =
      some ⟨true, 1, 1, 0, 5, 0⟩) ∧
    (processDateRangeFuel 10 ⟨1000, 3, 1⟩ 5 0 hashZero fetchFive connHasData true none true
        (fun _ _ => true) (midnight 2024 1 1) (midnight 2024 1 31) =
      some ⟨true, 1, 1, 1, 5, 0⟩) ∧
    (5 : Nat) ≠ 0 := by
  refine ⟨?_, ?_, by norm_num⟩
  · have h : processDateRangeFuel 10 ⟨1000, 3, 1⟩ 0 0 hashZero fetchFive connNone true
        none true (fun _ _ => true) (midnight 2024 1 1) (midnight 2024 1 31) =
        some ⟨runSuccess 1 0 1, 1, 1, 0, 5, 0⟩ := rfl
    rw [h, show runSuccess 1 0 1 = true from by norm_num [runSuccess]]
  · have h : processDateRangeFuel 10 ⟨1000, 3, 1⟩ 5 0 hashZero fetchFive connHasData true
        none true (fun _ _ => true) (midnight 2024 1 1) (midnight 2024 1 31) =
        some ⟨runSuccess 1 1 1, 1, 1, 1, 5, 0⟩ := rfl
    rw [h, show runSuccess 1 1 1 = true from by norm_num [runSuccess]]

set_option maxRecDepth 100000 in
/-- Claim C9 as amended: the chunk counters of the returned statistics
are per-invocation, but `total_ingested`/`total_failed` are instance
accumulators — a skip-everything re-run reports `skipped_chunks = 1`
and `total_ingested` equal to whatever the instance had accumulated
(0 exactly when the instance is fresh). -/
theorem claim9_amended_accumulators_carry_over :
    ∀ (cfg : PipeCfg) (ingested0 failed0 : Nat) (hashFn : RawRecord → Int)
      (fetchFn : FetchFn) (maxRecords : Option Nat) (upsertOk : Nat → Nat → Bool),
      processDateRangeFuel 10 cfg ingested0 failed0 hashFn fetchFn connHasData true
        maxRecords true upsertOk (midnight 2024 1 1) (midnight 2024 1 31) =
        some ⟨true, 1, 1, 1, ingested0, failed0⟩ := by
  intro cfg ingested0 failed0 hashFn fetchFn maxRecords upsertOk
  have h : processDateRangeFuel 10 cfg ingested0 failed0 hashFn fetchFn connHasData true
      maxRecords true upsertOk (midnight 2024 1 1) (midnight 2024 1 31) =
      some ⟨runSuccess 1 1 1, 1, 1, 1, ingested0, failed0⟩ := rfl
  rw [h, show runSuccess 1 1 1 = true from by norm_num [runSuccess]]

/-! ## C5: the 2–7 day split branch never terminates -/

/-- Claim C5 (code bug): a 7-day chunk at midnight datetimes whose
probed count (20,000) exceeds the hard limit takes the "split into
1-day sub-chunks" branch, but `split_date_range_into_days` never
terminates there (`none` for every fuel), so `recursive_split_chunk`
— and with it the whole planning phase of `process_date_range` for a
January 2024 run whose counts exceed the limit — never returns, instead
of emitting the seven 1-day sub-chunks the claim describes. -/
theorem claim5_split_into_days_diverges :
    (∀ fuel, daysSplitFuel fuel (midnight 2024 1 1) (midnight 2024 1 7) = none) ∧
    (∀ fuel, recursiveSplitFuel (probeConst 20000) false connNone true fuel
        (midnight 2024 1 1) (midnight 2024 1 7) = none) ∧
    (∀ fuel, planFuel fuel (probeConst 20000) false connNone true
        (midnight 2024 1 1) (midnight 2024 1 31) = none) := by
  have h1 : ∀ fuel, daysSplitFuel fuel (midnight 2024 1 1) (midnight 2024 1 7) = none := by
    intro fuel
    exact daysSplitFuel_midnight_none fuel (midnight 2024 1 1) (midnight 2024 1 7)
      rfl rfl (by decide) (by decide) (by decide)
  have h2 : ∀ fuel, recursiveSplitFuel (probeConst 20000) false connNone true fuel
      (midnight 2024 1 1) (midnight 2024 1 7) = none := by
    intro fuel
    cases fuel with
    | zero => rfl
    | succ f =>
      have hstep : recursiveSplitFuel (probeConst 20000) false connNone true (f + 1)
          (midnight 2024 1 1) (midnight 2024 1 7) =
          (match daysSplitFuel f (midnight 2024 1 1) (midnight 2024 1 7) with
           | none => none
           | some days =>
             (days.mapM (fun c =>
               recursiveSplitFuel (probeConst 20000) false connNone true f c.1 c.2)).map
               List.flatten) := rfl
      rw [hstep, h1 f]
  have h2m : ∀ fuel, recursiveSplitFuel (probeConst 20000) false connNone true fuel
      (midnight 2024 1 1) (midnight 2024 1 31) = none := by
    intro fuel
    cases fuel with
    | zero => rfl
    | succ f =>
      have hstep : recursiveSplitFuel (probeConst 20000) false connNone true (f + 1)
          (midnight 2024 1 1) (midnight 2024 1 31) =
          (match weeklySplitFuel f (midnight 2024 1 1) (midnight 2024 1 31) with
           | none => none
           | some weeks =>
             (weeks.mapM (fun c =>
               recursiveSplitFuel (probeConst 20000) false connNone true f c.1 c.2)).map
               List.flatten) := rfl
      rw [hstep]
      cases f with
      | zero => rfl
      | succ g =>
        have hweek : weeklySplitFuel (g + 1) (midnight 2024 1 1) (midnight 2024 1 31) =
            (weeklySplitFuel g (midnight 2024 1 8) (midnight 2024 1 31)).map
              (fun rest => (midnight 2024 1 1, midnight 2024 1 7) :: rest) := rfl
        rw [hweek]
        cases hrest : weeklySplitFuel g (midnight 2024 1 8) (midnight 2024 1 31) with
        | none => rfl
        | some rest =>
          simp only [Option.map_some']
          rw [List.mapM_cons]
          rw [h2 (g + 1)]
          rfl
  have h3 : ∀ fuel, planFuel fuel (probeConst 20000) false connNone true
      (midnight 2024 1 1) (midnight 2024 1 31) = none := by
    intro fuel
    cases fuel with
    | zero => rfl
    | succ f =>
      have hinner : getDateChunksFuel f (nextMonthDT (midnight 2024 1 1))
          (midnight 2024 1 31) = some [] := by
        cases f <;> rfl
      have hm : getDateChunksFuel (f + 1) (midnight 2024 1 1) (midnight 2024 1 31) =
          some [(midnight 2024 1 1, midnight 2024 1 31)] := by
        have hu : getDateChunksFuel (f + 1) (midnight 2024 1 1) (midnight 2024 1 31) =
            (getDateChunksFuel f (nextMonthDT (midnight 2024 1 1))
                (midnight 2024 1 31)).map
              (fun rest => (midnight 2024 1 1, midnight 2024 1 31) :: rest) := rfl
        rw [hu, hinner]
        rfl
      simp only [planFuel, hm, Option.bind_eq_bind, Option.some_bind]
      rw [List.mapM_cons, h2m (f + 1)]
      rfl
  exact ⟨h1, h2, h3⟩

/-! ## C6: chunk coverage of the planner -/

theorem calLtb_of_not_leb {a b : CalDate} (h : ¬ calLeb a b = true) :
    calLtb b a = true := by
  rw [calLeb_iff, calLtb_iff, cal_eq_iff] at h
  rw [calLtb_iff]
  push_neg at h
  omega

theorem dtLtb_of_not_leb {a b : DT} (h : ¬ dtLeb a b = true) : dtLtb b a = true := by
  rw [dtLeb_iff, dtLtb_iff, dt_eq_iff, cal_eq_iff, calLtb_iff] at h
  rw [dtLtb_iff, calLtb_iff, cal_eq_iff]
  push_neg at h
  omega

theorem dtLeb_of_ltb {a b : DT} (h : dtLtb a b = true) : dtLeb a b = true := by
  rw [dtLeb_iff]; exact Or.inl h

theorem dtLtb_calLeb {a b : DT} (h : dtLtb a b = true) :
    calLeb a.date b.date = true := dtLeb_calLeb (dtLeb_of_ltb h)

theorem dtLeb_of_calLeb_eq_tod {a b : DT} (h : calLeb a.date b.date = true)
    (ht : a.tod = b.tod) : dtLeb a b = true := by
  rw [dtLeb_parts]
  rcases calLeb_iff _ _ |>.mp h with h | h
  · exact Or.inl h
  · exact Or.inr ⟨h, Nat.le_of_eq ht⟩

/-- The last day of the month of `a`. -/
def lastOfMonth (a : CalDate) : CalDate := ⟨a.y, a.m, daysInMonth a.y a.m⟩

theorem nextMonthDT_date (t : DT) :
    (nextMonthDT t).date =
      if t.date.m == 12 then (⟨t.date.y + 1, 1, 1⟩ : CalDate)
      else ⟨t.date.y, t.date.m + 1, 1⟩ := by
  unfold nextMonthDT
  split <;> rename_i h <;> simp [h]

theorem nextMonthDT_tod (t : DT) : (nextMonthDT t).tod = t.tod := by
  unfold nextMonthDT
  split <;> rfl

theorem nextMonthDT_day (t : DT) : (nextMonthDT t).date.d = 1 := by
  rw [nextMonthDT_date]
  split <;> rfl

theorem nextMonthDT_date_valid {t : DT} (h : t.date.Valid) :
    (nextMonthDT t).date.Valid := by
  obtain ⟨h1, h2, h3, h4⟩ := h
  rw [CalDate.Valid, nextMonthDT_date]
  split <;> rename_i hm
  · have := daysInMonth_ge (y := t.date.y + 1) (m := 1) (by omega) (by omega)
    simp; omega
  · simp only [beq_iff_eq] at hm
    have := daysInMonth_ge (y := t.date.y) (m := t.date.m + 1) (by omega) (by omega)
    simp; omega

theorem predDay_nextMonth {t : DT} (h : t.date.Valid) :
    Birding.predDay (nextMonthDT t).date = lastOfMonth t.date := by
  obtain ⟨h1, h2, h3, h4⟩ := h
  rw [nextMonthDT_date]
  by_cases hm : t.date.m = 12
  · rw [if_pos (by simpa using hm)]
    unfold predDay lastOfMonth
    dsimp only
    rw [if_neg (by norm_num), if_neg (by norm_num), cal_eq_iff]
    dsimp only
    refine ⟨by omega, hm.symm, ?_⟩
    rw [hm]
    simp [daysInMonth]
  · rw [if_neg (by simpa using hm)]
    unfold predDay lastOfMonth
    dsimp only
    rw [if_neg (by norm_num), if_pos (by omega : 1 < t.date.m + 1), cal_eq_iff]
    dsimp only
    refine ⟨rfl, by omega, ?_⟩
    norm_num

theorem lastOfMonth_valid {a : CalDate} (h : a.Valid) : (lastOfMonth a).Valid := by
  obtain ⟨h1, h2, h3, h4⟩ := h
  have hd := daysInMonth_ge (y := a.y) (m := a.m) h1 h2
  refine ⟨h1, h2, ?_, Nat.le_refl _⟩
  show 1 ≤ daysInMonth a.y a.m
  omega

theorem le_lastOfMonth {a : CalDate} (h : a.Valid) :
    calLeb a (lastOfMonth a) = true := by
  obtain ⟨h1, h2, h3, h4⟩ := h
  rw [calLeb_iff, calLtb_iff, cal_eq_iff]
  unfold lastOfMonth
  dsimp only
  rcases Nat.lt_or_eq_of_le h4 with hlt | heq
  · exact Or.inl (Or.inr ⟨rfl, Or.inr ⟨rfl, hlt⟩⟩)
  · exact Or.inr ⟨rfl, rfl, heq⟩

theorem succ_lastOfMonth {t : DT} (h : t.date.Valid) :
    succDay (lastOfMonth t.date) = (nextMonthDT t).date := by
  obtain ⟨h1, h2, h3, h4⟩ := h
  unfold succDay lastOfMonth
  rw [nextMonthDT_date]
  dsimp only
  rw [if_neg (by omega)]
  by_cases hm : t.date.m = 12
  · rw [if_neg (by omega), if_pos (by simpa using hm)]
  · rw [if_pos (by omega), if_neg (by simpa using hm)]

theorem lastOfMonth_lt_nextMonth {t : DT} (h : t.date.Valid) :
    calLtb (lastOfMonth t.date) (nextMonthDT t).date = true := by
  rw [← succ_lastOfMonth h]
  exact lt_succDay _

theorem cur_lt_nextMonth {t : DT} (h : t.date.Valid) :
    calLtb t.date (nextMonthDT t).date = true :=
  calLtb_of_leb_of_ltb (le_lastOfMonth h) (lastOfMonth_lt_nextMonth h)

/-- Specification of `get_date_chunks`: chunk bounds, strict ordering,
and date coverage up to `end` (provided `end` is not the first of a
month). -/
theorem getDateChunks_spec :
    ∀ (fuel : Nat) (cur e : DT) (l : List (DT × DT)),
      cur.date.Valid → e.date.Valid →
      getDateChunksFuel fuel cur e = some l →
      (∀ p ∈ l, dtLeb p.1 p.2 = true ∧ calLeb cur.date p.1.date = true ∧
          calLeb p.2.date e.date = true) ∧
      List.Pairwise (fun p q => calLtb p.2.date q.1.date = true) l ∧
      (e.date.d ≠ 1 → dtLtb cur e = true →
        ∀ x : CalDate, x.Valid → calLeb cur.date x = true → calLeb x e.date = true →
          ∃ p ∈ l, calLeb p.1.date x = true ∧ calLeb x p.2.date = true) := by
  intro fuel
  induction fuel with
  | zero =>
    intro cur e l hv1 hv2 h
    by_cases hg : dtLtb cur e = true
    · simp [getDateChunksFuel, hg] at h
    · simp only [getDateChunksFuel, hg, Bool.false_eq_true, if_false,
        Option.some.injEq] at h
      subst h
      refine ⟨by simp, by simp, ?_⟩
      intro _ hlt
      exact absurd hlt hg
  | succ f ih =>
    intro cur e l hv1 hv2 h
    by_cases hg : dtLtb cur e = true
    · simp only [getDateChunksFuel, hg, if_true, Option.map_eq_some'] at h
      obtain ⟨rest, hrest, rfl⟩ := h
      set nm := nextMonthDT cur with hnm
      have hnmv : nm.date.Valid := nextMonthDT_date_valid hv1
      have hnmt : nm.tod = cur.tod := nextMonthDT_tod cur
      have hpd : nm.predDay = (⟨lastOfMonth cur.date, cur.tod⟩ : DT) := by
        unfold DT.predDay
        rw [predDay_nextMonth hv1, hnmt]
      obtain ⟨hbounds, hpair, hcover⟩ :=
        ih nm e rest hnmv hv2 hrest
      -- the first chunk's end
      by_cases hmin : dtLeb nm.predDay e = true
      · -- chunk end is the last day of the current month
        have hce : dtMin nm.predDay e = nm.predDay := by
          unfold dtMin; rw [if_pos hmin]
        rw [hce, hpd]
        rw [hpd] at hmin
        refine ⟨?_, ?_, ?_⟩
        · intro p hp
          rcases List.mem_cons.mp hp with rfl | hp
          · refine ⟨?_, calLeb_refl _, ?_⟩
            · exact dtLeb_of_calLeb_eq_tod (le_lastOfMonth hv1) rfl
            · exact dtLeb_calLeb hmin
          · obtain ⟨hb1, hb2, hb3⟩ := hbounds p hp
            exact ⟨hb1, calLeb_trans (calLeb_of_ltb (cur_lt_nextMonth hv1)) hb2, hb3⟩
        · refine List.Pairwise.cons ?_ hpair
          intro q hq
          obtain ⟨_, hb2, _⟩ := hbounds q hq
          exact calLtb_of_ltb_of_leb (lastOfMonth_lt_nextMonth hv1) hb2
        · intro hd1 _ x hxv hx1 hx2
          by_cases hxc : calLeb x (lastOfMonth cur.date) = true
          · exact ⟨(cur, ⟨lastOfMonth cur.date, cur.tod⟩), List.mem_cons_self _ _,
              hx1, hxc⟩
          · have hgt : calLtb (lastOfMonth cur.date) x = true := calLtb_of_not_leb hxc
            have hge : calLeb nm.date x = true := by
              rw [← succ_lastOfMonth hv1]
              exact succDay_le_of_lt (lastOfMonth_valid hv1) hxv hgt
            have hlt2 : dtLtb nm e = true := by
              rw [dtLtb_iff]
              left
              have hne : nm.date ≠ e.date := by
                intro hcon
                apply hd1
                rw [← hcon, nextMonthDT_day]
              have : calLeb nm.date e.date = true := calLeb_trans hge hx2
              rcases calLeb_iff _ _ |>.mp this with h | h
              · exact h
              · exact absurd h hne
            obtain ⟨p, hp, hpx⟩ := hcover hd1 hlt2 x hxv hge hx2
            exact ⟨p, List.mem_cons_of_mem _ hp, hpx⟩
      · -- chunk end is the requested end
        have hce : dtMin nm.predDay e = e := by
          unfold dtMin; rw [if_neg hmin]
        rw [hce]
        have helast : calLeb e.date (lastOfMonth cur.date) = true := by
          have := dtLtb_of_not_leb hmin
          rw [hpd] at this
          exact dtLtb_calLeb this
        refine ⟨?_, ?_, ?_⟩
        · intro p hp
          rcases List.mem_cons.mp hp with rfl | hp
          · exact ⟨dtLeb_of_ltb hg, calLeb_refl _, calLeb_refl _⟩
          · obtain ⟨hb1, hb2, hb3⟩ := hbounds p hp
            exact ⟨hb1, calLeb_trans (calLeb_of_ltb (cur_lt_nextMonth hv1)) hb2, hb3⟩
        · refine List.Pairwise.cons ?_ hpair
          intro q hq
          obtain ⟨_, hb2, _⟩ := hbounds q hq
          exact calLtb_of_ltb_of_leb
            (calLtb_of_leb_of_ltb helast (lastOfMonth_lt_nextMonth hv1)) hb2
        · intro _ _ x _ hx1 hx2
          exact ⟨(cur, e), List.mem_cons_self _ _, hx1, hx2⟩
    · simp only [getDateChunksFuel, hg, Bool.false_eq_true, if_false,
        Option.some.injEq] at h
      subst h
      refine ⟨by simp, by simp, ?_⟩
      intro _ hlt
      exact absurd hlt hg

/-- When every successful probe reports a count within the 10,000 hard
limit, `recursive_split_chunk` never splits: it returns its chunk
unchanged with some disposition. -/
theorem recursiveSplit_nosplit (probe : FetchFn) (sk auto : Bool)
    (conn : DT → DT → Except Unit (Option Int))
    (hprobe : ∀ a b off lim p, probe a b off lim = .ok p → pageCount p ≤ 10000)
    (f : Nat) (s e : DT) :
    ∃ d, recursiveSplitFuel probe sk conn auto (f + 1) s e = some [(s, e, d)] := by
  by_cases hskip : (sk && checkExistingData conn s e) = true
  · refine ⟨.skip, ?_⟩
    simp only [recursiveSplitFuel]
    rw [if_pos hskip]
  · by_cases hauto : auto = true
    · cases hp : probe s.date e.date 0 1000 with
      | error u =>
        refine ⟨.process, ?_⟩
        simp only [recursiveSplitFuel, hp]
        rw [if_neg hskip, if_pos hauto]
      | ok page =>
        refine ⟨.process, ?_⟩
        have hle := hprobe _ _ _ _ _ hp
        simp only [recursiveSplitFuel, hp]
        rw [if_neg hskip, if_pos hauto, if_neg (by omega : ¬ 10000 < pageCount page)]
    · refine ⟨.process, ?_⟩
      simp only [recursiveSplitFuel]
      rw [if_neg hskip, if_neg hauto]

theorem mapM_option_forall2 {α β : Type} (f : α → Option β) :
    ∀ (l : List α) (l2 : List β), l.mapM f = some l2 →
      List.Forall₂ (fun a b => f a = some b) l l2 := by
  intro l
  induction l with
  | nil =>
    intro l2 h
    simp only [List.mapM_nil, Option.pure_def, Option.some.injEq] at h
    subst h
    exact List.Forall₂.nil
  | cons a as ih =>
    intro l2 h
    rw [List.mapM_cons] at h
    cases hfa : f a with
    | none => rw [hfa] at h; simp at h
    | some x =>
      rw [hfa] at h
      cases hxs : as.mapM f with
      | none => rw [hxs] at h; simp at h
      | some xs =>
        rw [hxs] at h
        simp only [Option.pure_def, Option.bind_eq_bind, Option.some_bind,
          Option.some.injEq] at h
        subst h
        exact List.Forall₂.cons hfa (ih xs hxs)

theorem forall2_mem_right {α β : Type} {R : α → β → Prop} {l1 : List α}
    {l2 : List β} (h : List.Forall₂ R l1 l2) : ∀ b ∈ l2, ∃ a ∈ l1, R a b := by
  induction h with
  | nil => intro b hb; simp at hb
  | cons hab htl ih =>
    intro b hb
    rcases List.mem_cons.mp hb with rfl | hb
    · exact ⟨_, List.mem_cons_self _ _, hab⟩
    · obtain ⟨a, ha, har⟩ := ih b hb
      exact ⟨a, List.mem_cons_of_mem _ ha, har⟩

theorem forall2_mem_left {α β : Type} {R : α → β → Prop} {l1 : List α}
    {l2 : List β} (h : List.Forall₂ R l1 l2) : ∀ a ∈ l1, ∃ b ∈ l2, R a b := by
  induction h with
  | nil => intro a ha; simp at ha
  | cons hab htl ih =>
    intro a ha
    rcases List.mem_cons.mp ha with rfl | ha
    · exact ⟨_, List.mem_cons_self _ _, hab⟩
    · obtain ⟨b, hb, hbr⟩ := ih a ha
      exact ⟨b, List.mem_cons_of_mem _ hb, hbr⟩

theorem forall2_flatten_singleton {α β : Type} {P : α → β → Prop} {l1 : List α}
    {ps : List (List β)}
    (h : List.Forall₂ (fun a p => ∃ b, p = [b] ∧ P a b) l1 ps) :
    List.Forall₂ P l1 ps.flatten := by
  induction h with
  | nil => exact List.Forall₂.nil
  | cons hab htl ih =>
    obtain ⟨b, rfl, hPb⟩ := hab
    exact List.Forall₂.cons hPb ih

theorem forall2_pairwise {α β : Type} {S : α → β → Prop} {R : α → α → Prop}
    {T : β → β → Prop}
    (hcompat : ∀ a b a2 b2, S a b → S a2 b2 → R a a2 → T b b2) :
    ∀ {l1 : List α} {l2 : List β}, List.Forall₂ S l1 l2 → List.Pairwise R l1 →
      List.Pairwise T l2 := by
  intro l1 l2 h
  induction h with
  | nil => intro _; exact List.Pairwise.nil
  | cons hab htl ih =>
    intro hp
    cases hp with
    | cons hhead htail =>
      refine List.Pairwise.cons ?_ (ih htail)
      intro b2 hb2
      obtain ⟨a2, ha2, ha2b2⟩ := forall2_mem_right htl b2 hb2
      exact hcompat _ _ _ _ hab ha2b2 (hhead a2 ha2)

set_option maxRecDepth 100000 in
/-- C6 counterexample.  Three planning runs violate the claimed coverage
of `[start, end]`: (a) the degenerate range `start = end` (2024-01-15)
yields an empty plan, covering nothing; (b) a range ending on the first
of a month (2024-01-15 .. 2024-02-01) yields a single chunk ending
2024-01-31, leaving the requested end day uncovered; (c) February 2024
with a probe count of 20,000 is weekly-split into four chunks ending
2024-02-28, dropping the requested end day 2024-02-29. -/
theorem claim6_counterexample :
    (planFuel 3 fetchErr false connNone false (midnight 2024 1 15)
        (midnight 2024 1 15) = some []) ∧
    (planFuel 3 fetchErr false connNone false (midnight 2024 1 15)
        (midnight 2024 2 1) =
        some [(midnight 2024 1 15, midnight 2024 1 31, Dispo.process)] ∧
      calLtb (midnight 2024 1 31).date (midnight 2024 2 1).date = true) ∧
    (planFuel 6 probeFebBig false connNone true (midnight 2024 2 1)
        (midnight 2024 2 29) =
        some [(midnight 2024 2 1, midnight 2024 2 7, Dispo.process),
          (midnight 2024 2 8, midnight 2024 2 14, Dispo.process),
          (midnight 2024 2 15, midnight 2024 2 21, Dispo.process),
          (midnight 2024 2 22, midnight 2024 2 28, Dispo.process)] ∧
      calLtb (midnight 2024 2 28).date (midnight 2024 2 29).date = true) :=
  ⟨rfl, ⟨rfl, rfl⟩, ⟨rfl, rfl⟩⟩

/-- C6 amended.  For a range of valid dates with `start < end`, an end
date that is not the first of a month, and probes
whose successful counts stay within the 10,000 hard limit (so no chunk
is ever split), every plan the code returns consists of chunks that
(i) lie inside `[start, end]` with chunk start ≤ chunk end, (ii) are
pairwise non-overlapping — each chunk ends on a date strictly before
every later chunk's start date — and (iii) cover every valid calendar
day of `[start, end]`. -/
theorem claim6_amended (fuel : Nat) (probe : FetchFn) (sk auto : Bool)
    (conn : DT → DT → Except Unit (Option Int)) (s e : DT) (chunks : List Chunk)
    (hprobe : ∀ a b off lim p, probe a b off lim = .ok p → pageCount p ≤ 10000)
    (hv1 : s.date.Valid) (hv2 : e.date.Valid)
    (hlt : dtLtb s e = true) (hd1 : e.date.d ≠ 1)
    (hplan : planFuel fuel probe sk conn auto s e = some chunks) :
    (∀ c ∈ chunks, dtLeb c.1 c.2.1 = true ∧ calLeb s.date c.1.date = true ∧
        calLeb c.2.1.date e.date = true) ∧
    List.Pairwise (fun p q => calLtb p.2.1.date q.1.date = true) chunks ∧
    (∀ x : CalDate, x.Valid → calLeb s.date x = true → calLeb x e.date = true →
      ∃ c ∈ chunks, calLeb c.1.date x = true ∧ calLeb x c.2.1.date = true) := by
  unfold planFuel at hplan
  cases hmon : getDateChunksFuel fuel s e with
  | none => rw [hmon] at hplan; simp at hplan
  | some monthly =>
    rw [hmon] at hplan
    simp only [Option.pure_def, Option.bind_eq_bind, Option.some_bind] at hplan
    cases hparts : monthly.mapM
        (fun c => recursiveSplitFuel probe sk conn auto fuel c.1 c.2) with
    | none => rw [hparts] at hplan; simp at hplan
    | some parts =>
      rw [hparts] at hplan
      simp only [Option.pure_def, Option.bind_eq_bind, Option.some_bind,
        Option.some.injEq] at hplan
      subst hplan
      obtain ⟨f, rfl⟩ : ∃ f, fuel = f + 1 := by
        cases fuel with
        | zero =>
          exfalso
          unfold getDateChunksFuel at hmon
          rw [if_pos hlt] at hmon
          exact Option.noConfusion hmon
        | succ f => exact ⟨f, rfl⟩
      obtain ⟨hbounds, hpair, hcover⟩ :=
        getDateChunks_spec (f + 1) s e monthly hv1 hv2 hmon
      have hf2 := mapM_option_forall2 _ monthly parts hparts
      have hsing : List.Forall₂
          (fun (c : DT × DT) (p : List Chunk) =>
            ∃ k : Chunk, p = [k] ∧ k.1 = c.1 ∧ k.2.1 = c.2) monthly parts := by
        refine hf2.imp ?_
        intro c p hcp
        obtain ⟨d, hd⟩ := recursiveSplit_nosplit probe sk auto conn hprobe f c.1 c.2
        rw [hcp] at hd
        exact ⟨(c.1, c.2, d), Option.some.inj hd, rfl, rfl⟩
      have hflat : List.Forall₂
          (fun (c : DT × DT) (k : Chunk) => k.1 = c.1 ∧ k.2.1 = c.2)
          monthly parts.flatten := forall2_flatten_singleton hsing
      refine ⟨?_, ?_, ?_⟩
      · intro k hk
        obtain ⟨c, hc, hk1, hk2⟩ := forall2_mem_right hflat k hk
        obtain ⟨hb1, hb2, hb3⟩ := hbounds c hc
        rw [hk1, hk2]
        exact ⟨hb1, hb2, hb3⟩
      · refine forall2_pairwise ?_ hflat hpair
        intro c k c2 k2 hck hck2 hr
        rw [hck.2, hck2.1]
        exact hr
      · intro x hxv hx1 hx2
        obtain ⟨p, hp, hpx1, hpx2⟩ := hcover hd1 hlt x hxv hx1 hx2
        obtain ⟨k, hk, hk1, hk2⟩ := forall2_mem_left hflat p hp
        rw [← hk1] at hpx1
        rw [← hk2] at hpx2
        exact ⟨k, hk, hpx1, hpx2⟩

set_option maxRecDepth 100000 in
/-- Witness for the amended C6 theorem: the range 2024-01-15 ..
2024-01-20 planned with an always-raising probe yields the single chunk
(2024-01-15, 2024-01-20, process), which satisfies the bounds, ordering
and coverage properties. -/
theorem claim6_amended_witness :
    (∀ c ∈ ([(midnight 2024 1 15, midnight 2024 1 20, Dispo.process)] : List Chunk),
        dtLeb c.1 c.2.1 = true ∧
        calLeb (midnight 2024 1 15).date c.1.date = true ∧
        calLeb c.2.1.date (midnight 2024 1 20).date = true) ∧
    List.Pairwise (fun p q => calLtb p.2.1.date q.1.date = true)
      ([(midnight 2024 1 15, midnight 2024 1 20, Dispo.process)] : List Chunk) ∧
    (∀ x : CalDate, x.Valid → calLeb (midnight 2024 1 15).date x = true →
        calLeb x (midnight 2024 1 20).date = true →
        ∃ c ∈ ([(midnight 2024 1 15, midnight 2024 1 20, Dispo.process)] : List Chunk),
          calLeb c.1.date x = true ∧ calLeb x c.2.1.date = true) :=
  claim6_amended 3 fetchErr false false connNone (midnight 2024 1 15)
    (midnight 2024 1 20)
    [(midnight 2024 1 15, midnight 2024 1 20, Dispo.process)]
    (fun _ _ _ _ _ h => Except.noConfusion h)
    (by decide) (by decide) (by decide) (by decide) rfl

theorem fetchPagesAux_ceiling (fetch : Nat → Except Unit Page) (mr : Option Nat)
    (fuel : Nat) (acc : List RawRecord) (offset : Nat)
    (hg : 10000 < offset + 1000) :
    fetchPagesAux fetch mr fuel acc offset = (.ok acc, []) := by
  conv_lhs => rw [fetchPagesAux]
  rw [if_pos hg]

theorem fetchPagesAux_err (fetch : Nat → Except Unit Page) (mr : Option Nat)
    (fuel : Nat) (acc : List RawRecord) (offset : Nat)
    (hg : ¬ 10000 < offset + 1000)
    (he : fetch offset = .error () ∨ ∃ p, fetch offset = .ok p ∧ p.hasError = true) :
    fetchPagesAux fetch mr fuel acc offset =
      if offset = 0 then (.error (), [(offset, none)])
      else (.ok acc, [(offset, none)]) := by
  conv_lhs => rw [fetchPagesAux]
  rw [if_neg hg]
  rcases he with he | ⟨p, hp, hpe⟩
  · simp only [he]
  · simp only [hp, hpe, if_true]

theorem fetchPagesAux_capmet (fetch : Nat → Except Unit Page) (mr : Option Nat)
    (fuel : Nat) (acc : List RawRecord) (offset : Nat) (page : Page)
    (hg : ¬ 10000 < offset + 1000) (hp : fetch offset = .ok page)
    (hpe : page.hasError = false)
    (ht : truncOf mr acc.length page.results = none) :
    fetchPagesAux fetch mr fuel acc offset = (.ok acc, [(offset, some [])]) := by
  conv_lhs => rw [fetchPagesAux]
  rw [if_neg hg]
  simp only [hp, hpe, Bool.false_eq_true, if_false, ht]

theorem fetchPagesAux_stop (fetch : Nat → Except Unit Page) (mr : Option Nat)
    (fuel : Nat) (acc : List RawRecord) (offset : Nat) (page : Page)
    (contributed : List RawRecord)
    (hg : ¬ 10000 < offset + 1000) (hp : fetch offset = .ok page)
    (hpe : page.hasError = false)
    (ht : truncOf mr acc.length page.results = some contributed)
    (hstop : contributed.isEmpty = true ∨ contributed.length < 1000 ∨
      maxReachedB mr (acc ++ contributed).length = true ∨
      10000 ≤ (acc ++ contributed).length) :
    fetchPagesAux fetch mr fuel acc offset =
      (.ok (acc ++ contributed), [(offset, some contributed)]) := by
  conv_lhs => rw [fetchPagesAux]
  rw [if_neg hg]
  simp only [hp, hpe, Bool.false_eq_true, if_false, ht]
  by_cases h1 : contributed.isEmpty = true
  · rw [if_pos h1]
  · rw [if_neg h1]
    by_cases h2 : contributed.length < 1000
    · rw [if_pos h2]
    · rw [if_neg h2]
      by_cases h3 : maxReachedB mr (acc ++ contributed).length = true
      · rw [if_pos h3]
      · rw [if_neg h3]
        by_cases h4 : 10000 ≤ (acc ++ contributed).length
        · rw [if_pos h4]
        · exfalso
          rcases hstop with h | h | h | h
          · exact h1 h
          · exact h2 h
          · exact h3 h
          · exact h4 h

theorem fetchPagesAux_continue (fetch : Nat → Except Unit Page) (mr : Option Nat)
    (f : Nat) (acc : List RawRecord) (offset : Nat) (page : Page)
    (contributed : List RawRecord)
    (hg : ¬ 10000 < offset + 1000) (hp : fetch offset = .ok page)
    (hpe : page.hasError = false)
    (ht : truncOf mr acc.length page.results = some contributed)
    (h1 : ¬ contributed.isEmpty = true) (h2 : ¬ contributed.length < 1000)
    (h3 : ¬ maxReachedB mr (acc ++ contributed).length = true)
    (h4 : ¬ 10000 ≤ (acc ++ contributed).length) :
    fetchPagesAux fetch mr (f + 1) acc offset =
      ((fetchPagesAux fetch mr f (acc ++ contributed)
          (offset + contributed.length)).1,
        (offset, some contributed) ::
          (fetchPagesAux fetch mr f (acc ++ contributed)
            (offset + contributed.length)).2) := by
  conv_lhs => rw [fetchPagesAux]
  rw [if_neg hg]
  simp only [hp, hpe, Bool.false_eq_true, if_false, ht]
  rw [if_neg h1, if_neg h2, if_neg h3, if_neg h4]

theorem fetchPagesAux_fuelout (fetch : Nat → Except Unit Page) (mr : Option Nat)
    (acc : List RawRecord) (offset : Nat) (page : Page)
    (contributed : List RawRecord)
    (hg : ¬ 10000 < offset + 1000) (hp : fetch offset = .ok page)
    (hpe : page.hasError = false)
    (ht : truncOf mr acc.length page.results = some contributed)
    (h1 : ¬ contributed.isEmpty = true) (h2 : ¬ contributed.length < 1000)
    (h3 : ¬ maxReachedB mr (acc ++ contributed).length = true)
    (h4 : ¬ 10000 ≤ (acc ++ contributed).length) :
    fetchPagesAux fetch mr 0 acc offset =
      (.ok (acc ++ contributed), [(offset, some contributed)]) := by
  conv_lhs => rw [fetchPagesAux]
  rw [if_neg hg]
  simp only [hp, hpe, Bool.false_eq_true, if_false, ht]
  rw [if_neg h1, if_neg h2, if_neg h3, if_neg h4]

theorem fetchPagesAux_spec (fetch : Nat → Except Unit Page) (mr : Option Nat) :
    ∀ (fuel : Nat) (acc : List RawRecord) (offset : Nat),
      (∀ q ∈ (fetchPagesAux fetch mr fuel acc offset).2, q.1 + 1000 ≤ 10000) ∧
      (offset ≠ 0 → ∃ l, (fetchPagesAux fetch mr fuel acc offset).1 = Except.ok l) ∧
      (∀ l, (fetchPagesAux fetch mr fuel acc offset).1 = Except.ok l →
        l = acc ++
          ((fetchPagesAux fetch mr fuel acc offset).2.filterMap Prod.snd).flatten) := by
  intro fuel
  induction fuel with
  | zero =>
    intro acc offset
    by_cases hg : 10000 < offset + 1000
    · rw [fetchPagesAux_ceiling fetch mr 0 acc offset hg]
      refine ⟨by simp, fun _ => ⟨acc, rfl⟩, ?_⟩
      intro l hl
      simp only [Except.ok.injEq] at hl
      simp [hl.symm]
    · cases hfe : fetch offset with
      | error u =>
        have he := fetchPagesAux_err fetch mr 0 acc offset hg (Or.inl hfe)
        by_cases h0 : offset = 0
        · rw [he, if_pos h0]
          refine ⟨?_, fun h0x => absurd h0 h0x, ?_⟩
          · intro q hq
            have hq2 : q = (offset, none) := by simpa using hq
            subst hq2
            dsimp only
            omega
          · intro l hl
            simp at hl
        · rw [he, if_neg h0]
          refine ⟨?_, fun _ => ⟨acc, rfl⟩, ?_⟩
          · intro q hq
            have hq2 : q = (offset, none) := by simpa using hq
            subst hq2
            dsimp only
            omega
          · intro l hl
            simp only [Except.ok.injEq] at hl
            simp [hl.symm]
      | ok page =>
        by_cases hpe : page.hasError = true
        · have he := fetchPagesAux_err fetch mr 0 acc offset hg (Or.inr ⟨page, hfe, hpe⟩)
          by_cases h0 : offset = 0
          · rw [he, if_pos h0]
            refine ⟨?_, fun h0x => absurd h0 h0x, ?_⟩
            · intro q hq
              have hq2 : q = (offset, none) := by simpa using hq
              subst hq2
              dsimp only
              omega
            · intro l hl
              simp at hl
          · rw [he, if_neg h0]
            refine ⟨?_, fun _ => ⟨acc, rfl⟩, ?_⟩
            · intro q hq
              have hq2 : q = (offset, none) := by simpa using hq
              subst hq2
              dsimp only
              omega
            · intro l hl
              simp only [Except.ok.injEq] at hl
              simp [hl.symm]
        · have hpe2 : page.hasError = false := by simpa using hpe
          cases ht : truncOf mr acc.length page.results with
          | none =>
            rw [fetchPagesAux_capmet fetch mr 0 acc offset page hg hfe hpe2 ht]
            refine ⟨?_, fun _ => ⟨acc, rfl⟩, ?_⟩
            · intro q hq
              have hq2 : q = (offset, some []) := by simpa using hq
              subst hq2
              dsimp only
              omega
            · intro l hl
              simp only [Except.ok.injEq] at hl
              simp [hl.symm]
          | some contributed =>
            by_cases hstop : contributed.isEmpty = true ∨ contributed.length < 1000 ∨
                maxReachedB mr (acc ++ contributed).length = true ∨
                10000 ≤ (acc ++ contributed).length
            · rw [fetchPagesAux_stop fetch mr 0 acc offset page contributed hg hfe
                hpe2 ht hstop]
              refine ⟨?_, fun _ => ⟨acc ++ contributed, rfl⟩, ?_⟩
              · intro q hq
                have hq2 : q = (offset, some contributed) := by simpa using hq
                subst hq2
                dsimp only
                omega
              · intro l hl
                simp only [Except.ok.injEq] at hl
                simp [hl.symm]
            · rw [not_or, not_or, not_or] at hstop
              obtain ⟨h1, h2, h3, h4⟩ := hstop
              rw [fetchPagesAux_fuelout fetch mr acc offset page contributed hg hfe
                hpe2 ht h1 h2 h3 h4]
              refine ⟨?_, fun _ => ⟨acc ++ contributed, rfl⟩, ?_⟩
              · intro q hq
                have hq2 : q = (offset, some contributed) := by simpa using hq
                subst hq2
                dsimp only
                omega
              · intro l hl
                simp only [Except.ok.injEq] at hl
                simp [hl.symm]
  | succ f ih =>
    intro acc offset
    by_cases hg : 10000 < offset + 1000
    · rw [fetchPagesAux_ceiling fetch mr (f + 1) acc offset hg]
      refine ⟨by simp, fun _ => ⟨acc, rfl⟩, ?_⟩
      intro l hl
      simp only [Except.ok.injEq] at hl
      simp [hl.symm]
    · cases hfe : fetch offset with
      | error u =>
        have he := fetchPagesAux_err fetch mr (f + 1) acc offset hg (Or.inl hfe)
        by_cases h0 : offset = 0
        · rw [he, if_pos h0]
          refine ⟨?_, fun h0x => absurd h0 h0x, ?_⟩
          · intro q hq
            have hq2 : q = (offset, none) := by simpa using hq
            subst hq2
            dsimp only
            omega
          · intro l hl
            simp at hl
        · rw [he, if_neg h0]
          refine ⟨?_, fun _ => ⟨acc, rfl⟩, ?_⟩
          · intro q hq
            have hq2 : q = (offset, none) := by simpa using hq
            subst hq2
            dsimp only
            omega
          · intro l hl
            simp only [Except.ok.injEq] at hl
            simp [hl.symm]
      | ok page =>
        by_cases hpe : page.hasError = true
        · have he := fetchPagesAux_err fetch mr (f + 1) acc offset hg
            (Or.inr ⟨page, hfe, hpe⟩)
          by_cases h0 : offset = 0
          · rw [he, if_pos h0]
            refine ⟨?_, fun h0x => absurd h0 h0x, ?_⟩
            · intro q hq
              have hq2 : q = (offset, none) := by simpa using hq
              subst hq2
              dsimp only
              omega
            · intro l hl
              simp at hl
          · rw [he, if_neg h0]
            refine ⟨?_, fun _ => ⟨acc, rfl⟩, ?_⟩
            · intro q hq
              have hq2 : q = (offset, none) := by simpa using hq
              subst hq2
              dsimp only
              omega
            · intro l hl
              simp only [Except.ok.injEq] at hl
              simp [hl.symm]
        · have hpe2 : page.hasError = false := by simpa using hpe
          cases ht : truncOf mr acc.length page.results with
          | none =>
            rw [fetchPagesAux_capmet fetch mr (f + 1) acc offset page hg hfe hpe2 ht]
            refine ⟨?_, fun _ => ⟨acc, rfl⟩, ?_⟩
            · intro q hq
              have hq2 : q = (offset, some []) := by simpa using hq
              subst hq2
              dsimp only
              omega
            · intro l hl
              simp only [Except.ok.injEq] at hl
              simp [hl.symm]
          | some contributed =>
            by_cases hstop : contributed.isEmpty = true ∨ contributed.length < 1000 ∨
                maxReachedB mr (acc ++ contributed).length = true ∨
                10000 ≤ (acc ++ contributed).length
            · rw [fetchPagesAux_stop fetch mr (f + 1) acc offset page contributed hg
                hfe hpe2 ht hstop]
              refine ⟨?_, fun _ => ⟨acc ++ contributed, rfl⟩, ?_⟩
              · intro q hq
                have hq2 : q = (offset, some contributed) := by simpa using hq
                subst hq2
                dsimp only
                omega
              · intro l hl
                simp only [Except.ok.injEq] at hl
                simp [hl.symm]
            · rw [not_or, not_or, not_or] at hstop
              obtain ⟨h1, h2, h3, h4⟩ := hstop
              rw [fetchPagesAux_continue fetch mr f acc offset page contributed hg hfe
                hpe2 ht h1 h2 h3 h4]
              obtain ⟨ih1, ih2, ih3⟩ := ih (acc ++ contributed) (offset + contributed.length)
              refine ⟨?_, ?_, ?_⟩
              · intro q hq
                rcases List.mem_cons.mp hq with rfl | hq
                · dsimp only
                  omega
                · exact ih1 q hq
              · intro _
                exact ih2 (by omega)
              · intro l hl
                have h5 := ih3 l hl
                rw [h5]
                simp
theorem fetchPagesAux_fuel_stable (fetch : Nat → Except Unit Page)
    (mr : Option Nat) :
    ∀ (f g : Nat) (acc : List RawRecord) (offset : Nat),
      10000 ≤ 1000 * f + offset → 10000 ≤ 1000 * g + offset →
      fetchPagesAux fetch mr f acc offset = fetchPagesAux fetch mr g acc offset := by
  intro f
  induction f with
  | zero =>
    intro g acc offset hf hg2
    have hgg : 10000 < offset + 1000 := by omega
    rw [fetchPagesAux_ceiling fetch mr 0 acc offset hgg,
      fetchPagesAux_ceiling fetch mr g acc offset hgg]
  | succ f ih =>
    intro g acc offset hf hg2
    by_cases hgg : 10000 < offset + 1000
    · rw [fetchPagesAux_ceiling fetch mr (f + 1) acc offset hgg,
        fetchPagesAux_ceiling fetch mr g acc offset hgg]
    · obtain ⟨g2, rfl⟩ : ∃ g2, g = g2 + 1 := by
        cases g with
        | zero => exfalso; omega
        | succ g2 => exact ⟨g2, rfl⟩
      cases hfe : fetch offset with
      | error u =>
        rw [fetchPagesAux_err fetch mr (f + 1) acc offset hgg (Or.inl hfe),
          fetchPagesAux_err fetch mr (g2 + 1) acc offset hgg (Or.inl hfe)]
      | ok page =>
        by_cases hpe : page.hasError = true
        · rw [fetchPagesAux_err fetch mr (f + 1) acc offset hgg
            (Or.inr ⟨page, hfe, hpe⟩),
            fetchPagesAux_err fetch mr (g2 + 1) acc offset hgg
            (Or.inr ⟨page, hfe, hpe⟩)]
        · have hpe2 : page.hasError = false := by simpa using hpe
          cases ht : truncOf mr acc.length page.results with
          | none =>
            rw [fetchPagesAux_capmet fetch mr (f + 1) acc offset page hgg hfe hpe2 ht,
              fetchPagesAux_capmet fetch mr (g2 + 1) acc offset page hgg hfe hpe2 ht]
          | some contributed =>
            by_cases hstop : contributed.isEmpty = true ∨ contributed.length < 1000 ∨
                maxReachedB mr (acc ++ contributed).length = true ∨
                10000 ≤ (acc ++ contributed).length
            · rw [fetchPagesAux_stop fetch mr (f + 1) acc offset page contributed hgg
                hfe hpe2 ht hstop,
                fetchPagesAux_stop fetch mr (g2 + 1) acc offset page contributed hgg
                hfe hpe2 ht hstop]
            · rw [not_or, not_or, not_or] at hstop
              obtain ⟨h1, h2, h3, h4⟩ := hstop
              rw [fetchPagesAux_continue fetch mr f acc offset page contributed hgg
                hfe hpe2 ht h1 h2 h3 h4,
                fetchPagesAux_continue fetch mr g2 acc offset page contributed hgg
                hfe hpe2 ht h1 h2 h3 h4,
                ih g2 (acc ++ contributed) (offset + contributed.length) (by omega)
                  (by omega)]

/-- C4.  The pagination loop of `process_date_range`: (i) the structural
iteration bound 10 of the embedding is never what stops the loop — any
bound of at least 10 produces the same run; (ii) every issued request
satisfies `offset + limit <= max_total` (the 10,000 ceiling is checked
before each request, and the loop stops instead of exceeding it);
(iii) the loop raises exactly when the very first page (offset 0) raises
or returns an `"error"` response — an error after at least one
successful page never propagates; (iv) a non-raising run returns
exactly the concatenation of the records contributed by its successful
requests (the partial result accumulated so far when a later page
fails). -/
theorem claim4_pagination_loop (fetch : Nat → Except Unit Page) (mr : Option Nat) :
    (∀ f, 10 ≤ f → fetchPagesAux fetch mr f [] 0 = fetchPages fetch mr) ∧
    (∀ q ∈ (fetchPages fetch mr).2, q.1 + 1000 ≤ 10000) ∧
    ((fetchPages fetch mr).1 = .error () ↔
      (fetch 0 = .error () ∨ ∃ p, fetch 0 = .ok p ∧ p.hasError = true)) ∧
    (∀ l, (fetchPages fetch mr).1 = Except.ok l →
      l = ((fetchPages fetch mr).2.filterMap Prod.snd).flatten) := by
  obtain ⟨s1, s2, s3⟩ := fetchPagesAux_spec fetch mr 10 [] 0
  refine ⟨?_, s1, ⟨?_, ?_⟩, ?_⟩
  · intro f hf
    exact fetchPagesAux_fuel_stable fetch mr f 10 [] 0 (by omega) (by omega)
  · intro herr
    by_contra hno
    rw [not_or] at hno
    obtain ⟨hne, hnok⟩ := hno
    have hgg : ¬ 10000 < 0 + 1000 := by omega
    cases hfe : fetch 0 with
    | error u => exact hne hfe
    | ok page =>
      have hpe2 : page.hasError = false := by
        by_contra hh
        exact hnok ⟨page, hfe, by simpa using hh⟩
      unfold fetchPages at herr
      cases ht : truncOf mr ([] : List RawRecord).length page.results with
      | none =>
        rw [fetchPagesAux_capmet fetch mr 10 [] 0 page hgg hfe hpe2 ht] at herr
        simp at herr
      | some contributed =>
        by_cases hstop : contributed.isEmpty = true ∨ contributed.length < 1000 ∨
            maxReachedB mr (([] : List RawRecord) ++ contributed).length = true ∨
            10000 ≤ (([] : List RawRecord) ++ contributed).length
        · rw [fetchPagesAux_stop fetch mr 10 [] 0 page contributed hgg hfe hpe2 ht
            hstop] at herr
          simp at herr
        · rw [not_or, not_or, not_or] at hstop
          obtain ⟨h1, h2, h3, h4⟩ := hstop
          rw [fetchPagesAux_continue fetch mr 9 [] 0 page contributed hgg hfe hpe2 ht
            h1 h2 h3 h4] at herr
          obtain ⟨_, s5, _⟩ :=
            fetchPagesAux_spec fetch mr 9 ([] ++ contributed) (0 + contributed.length)
          obtain ⟨l, hl⟩ := s5 (by omega)
          dsimp only at herr
          rw [hl] at herr
          simp at herr
  · intro he
    unfold fetchPages
    have hgg : ¬ 10000 < 0 + 1000 := by omega
    rw [fetchPagesAux_err fetch mr 10 [] 0 hgg he, if_pos rfl]
  · intro l hl
    have h6 := s3 l hl
    simpa using h6

theorem parseDateStr_empty : parseDateStr "" = none := rfl

theorem parseDateStr_ne_empty {s : String} {d : CalDate}
    (hp : parseDateStr s = some d) : (s == "") = false := by
  by_cases h : s = ""
  · rw [h, parseDateStr_empty] at hp
    cases hp
  · simpa using h

set_option maxRecDepth 100000 in
/-- C7 counterexample.  The date-location claim is not universal: a
present-but-dateless earlier location shadows every later one and makes
the transform return `None` instead of extracting the date.  With the
parseable date string 2024-01-15: a record whose `event` key holds an
empty dict drops its flat `eventDate`; a record whose `eventDate` key
holds `None` drops its `observationDate`; the same date in `eventDate`
with no `event` key is extracted fine. -/
theorem claim7_counterexample :
    parseDateStr "2024-01-15" = some ⟨2024, 1, 15⟩ ∧
    transform hashZero (recShadowEvent "2024-01-15") = none ∧
    transform hashZero (recShadowNone "2024-01-15") = none ∧
    Option.map DbRecord.observation_date
      (transform hashZero (recDateAt 2 "2024-01-15")) =
      some (some (PyV.vDate ⟨2024, 1, 15⟩)) :=
  ⟨rfl, rfl, rfl, rfl⟩

/-- C7 amended.  (i) Whenever the raw latitude or longitude raises on
`float` coercion or is `None` (covering an absent key), the transform
returns `None` — this part holds for every raw record; (ii) a record
carrying a parseable date string in the `i`-th supported location
(0 = `event.startDate`, 1 = `event.endDate`, 2 = `eventDate`,
3 = `observationDate`, 4 = `startDate`, 5 = `date`) and nothing
date-like in any location — in particular nothing truthy in an earlier
one — transforms successfully with the same stored calendar date for
every `i`; (iii) with the same date string at location `i` and a second
string in every later location, the stored date is still the one from
location `i` — earlier locations win, and by the counterexample a
truthy but dateless earlier location shadows later ones entirely. -/
theorem claim7_amended :
    (∀ (hashFn : RawRecord → Int) (r : RawRecord),
      coerceCoord (rawLatOf r) = .error () ∨ coerceCoord (rawLonOf r) = .error () ∨
      coerceCoord (rawLatOf r) = .ok none ∨ coerceCoord (rawLonOf r) = .ok none →
      transform hashFn r = none) ∧
    (∀ (hashFn : RawRecord → Int) (s : String) (d : CalDate),
      parseDateStr s = some d → ∀ i, i < 6 →
      Option.map DbRecord.observation_date (transform hashFn (recDateAt i s)) =
        some (some (PyV.vDate d))) ∧
    (∀ (hashFn : RawRecord → Int) (s t : String) (d : CalDate),
      parseDateStr s = some d → ∀ i, i < 6 →
      Option.map DbRecord.observation_date (transform hashFn (recDateFrom i s t)) =
        some (some (PyV.vDate d))) := by
  refine ⟨?_, ?_, ?_⟩
  · intro hashFn r hbad
    cases hd : extractObservationDate r with
    | none => simp [transform, hd]
    | some obsDate =>
      cases hla : coerceCoord (rawLatOf r) with
      | error u => simp [transform, hd, hla]
      | ok latOpt =>
        cases hlo : coerceCoord (rawLonOf r) with
        | error u => simp [transform, hd, hla, hlo]
        | ok lonOpt =>
          have hnone : latOpt = none ∨ lonOpt = none := by
            rcases hbad with h | h | h | h
            · rw [hla] at h; cases h
            · rw [hlo] at h; cases h
            · rw [hla] at h; exact Or.inl (Except.ok.inj h)
            · rw [hlo] at h; exact Or.inr (Except.ok.inj h)
          rcases hnone with rfl | rfl
          · simp [transform, hd, hla, hlo]
          · simp [transform, hd, hla, hlo]
  · intro hashFn s d hp i hi
    have hs := parseDateStr_ne_empty hp
    interval_cases i <;>
      simp [transform, recDateAt, emptyRaw, extractObservationDate, extractDateValue,
        rawLatOf, rawLonOf, coerceCoord, pyFloatNonNone, pyOr, truthy, hs, hp]
  · intro hashFn s t d hp i hi
    have hs := parseDateStr_ne_empty hp
    interval_cases i <;>
      simp [transform, recDateFrom, emptyRaw, extractObservationDate, extractDateValue,
        rawLatOf, rawLonOf, coerceCoord, pyFloatNonNone, pyOr, truthy, hs, hp]

/-- The `created_at` column an upsert writes for an id: the existing
row's value on conflict, the fresh timestamp on insert. -/
def createdOf (o : Option Row) (now : Nat) : Nat :=
  match o with
  | some row => row.created_at
  | none => now

/-- The last record of a batch carrying a given id — the one whose
columns survive `executemany` (last write wins). -/
def lastRec : List DbRecord → PyV → Option DbRecord
  | [], _ => none
  | r :: rs, id =>
    match lastRec rs id with
    | some x => some x
    | none => if r.id == id then some r else none

theorem findRow_eq_none_iff {t : Table} {id : PyV} :
    findRow t id = none ↔ id ∉ t.map Prod.fst := by
  induction t with
  | nil => simp [findRow]
  | cons kv t ih =>
    by_cases hk : kv.1 = id
    · simp [findRow, List.find?_cons, hk]
    · simp only [findRow, List.find?_cons] at ih ⊢
      rw [show (kv.1 == id) = false from by simpa using hk]
      simp only [List.map_cons, List.mem_cons]
      rw [ih]
      constructor
      · intro h hmem
        rcases hmem with h2 | h2
        · exact hk h2.symm
        · exact h h2
      · intro h h2
        exact h (Or.inr h2)

theorem findRow_cons_ne {kv : PyV × Row} {t : Table} {id : PyV}
    (h : ¬ kv.1 = id) : findRow (kv :: t) id = findRow t id := by
  simp only [findRow, List.find?_cons]
  rw [show (kv.1 == id) = false from by simpa using h]

theorem findRow_cons_self {kv : PyV × Row} {t : Table} :
    findRow (kv :: t) kv.1 = some kv.2 := by
  simp [findRow, List.find?_cons]

theorem findRow_overwrite_self (rid : PyV) (g : Row → Row) :
    ∀ (t : Table) (row : Row), findRow t rid = some row →
      findRow (t.map (fun kv => if kv.1 == rid then (kv.1, g kv.2) else kv)) rid =
        some (g row) := by
  intro t
  induction t with
  | nil => intro row h; simp [findRow] at h
  | cons kv t ih =>
    intro row h
    by_cases hk : kv.1 = rid
    · subst hk
      rw [findRow_cons_self] at h
      simp only [Option.some.injEq] at h
      subst h
      simp only [List.map_cons, beq_self_eq_true, if_true]
      exact @findRow_cons_self (kv.1, g kv.2) _
    · rw [findRow_cons_ne hk] at h
      simp only [List.map_cons]
      rw [show (kv.1 == rid) = false from by simpa using hk, if_neg (by simp)]
      rw [findRow_cons_ne hk]
      exact ih row h

theorem findRow_overwrite_ne (rid : PyV) (g : Row → Row) {id : PyV}
    (h : ¬ id = rid) :
    ∀ (t : Table),
      findRow (t.map (fun kv => if kv.1 == rid then (kv.1, g kv.2) else kv)) id =
        findRow t id := by
  intro t
  induction t with
  | nil => rfl
  | cons kv t ih =>
    simp only [List.map_cons]
    by_cases hk : kv.1 = rid
    · rw [show (kv.1 == rid) = true from by simpa using hk, if_pos rfl,
        @findRow_cons_ne (kv.1, g kv.2) _ _ (fun h2 => h (h2.symm.trans hk)),
        findRow_cons_ne (fun h2 => h (h2.symm.trans hk))]
      exact ih
    · rw [show (kv.1 == rid) = false from by simpa using hk, if_neg (by simp)]
      by_cases hki : kv.1 = id
      · subst hki
        rw [findRow_cons_self, findRow_cons_self]
      · rw [findRow_cons_ne hki, findRow_cons_ne hki]
        exact ih

theorem findRow_append_single_self {t : Table} {rid : PyV} {v : Row}
    (h : findRow t rid = none) : findRow (t ++ [(rid, v)]) rid = some v := by
  induction t with
  | nil => exact findRow_cons_self
  | cons kv t ih =>
    by_cases hk : kv.1 = rid
    · subst hk
      rw [findRow_cons_self] at h
      cases h
    · rw [findRow_cons_ne hk] at h
      rw [List.cons_append, findRow_cons_ne hk]
      exact ih h

theorem findRow_append_single_ne {t : Table} {rid : PyV} {v : Row} {id : PyV}
    (h : ¬ id = rid) : findRow (t ++ [(rid, v)]) id = findRow t id := by
  induction t with
  | nil =>
    rw [List.nil_append]
    rw [findRow_cons_ne (fun h2 => h h2.symm)]
  | cons kv t ih =>
    by_cases hk : kv.1 = id
    · subst hk
      rw [List.cons_append, findRow_cons_self, findRow_cons_self]
    · rw [List.cons_append, findRow_cons_ne hk, findRow_cons_ne hk]
      exact ih

theorem findRow_upsertRow_self {t : Table} {now : Nat} {rec : DbRecord} :
    findRow (upsertRow t now rec) rec.id =
      some (rowOfRecord rec now (createdOf (findRow t rec.id) now)) := by
  cases hf : findRow t rec.id with
  | some row =>
    unfold upsertRow
    rw [hf]
    exact findRow_overwrite_self rec.id
      (fun v => rowOfRecord rec now v.created_at) t row hf
  | none =>
    unfold upsertRow
    rw [hf]
    exact findRow_append_single_self hf

theorem findRow_upsertRow_ne {t : Table} {now : Nat} {rec : DbRecord} {id : PyV}
    (h : ¬ id = rec.id) :
    findRow (upsertRow t now rec) id = findRow t id := by
  cases hf : findRow t rec.id with
  | some row =>
    unfold upsertRow
    rw [hf]
    exact findRow_overwrite_ne rec.id (fun v => rowOfRecord rec now v.created_at) h t
  | none =>
    unfold upsertRow
    rw [hf]
    exact findRow_append_single_ne h

theorem createdOf_upsertRow {t : Table} {now : Nat} {rec : DbRecord} {id : PyV} :
    createdOf (findRow (upsertRow t now rec) id) now =
      createdOf (findRow t id) now := by
  by_cases hk : id = rec.id
  · subst hk
    rw [findRow_upsertRow_self]
    cases hf : findRow t rec.id <;> rfl
  · rw [findRow_upsertRow_ne hk]

theorem findRow_upsertBatch {now : Nat} :
    ∀ (recs : List DbRecord) (t : Table) (id : PyV),
      findRow (upsertBatch t now recs) id =
        match lastRec recs id with
        | some r => some (rowOfRecord r now (createdOf (findRow t id) now))
        | none => findRow t id := by
  intro recs
  induction recs with
  | nil => intro t id; rfl
  | cons a rs ih =>
    intro t id
    have step : upsertBatch t now (a :: rs) = upsertBatch (upsertRow t now a) now rs :=
      rfl
    rw [step, ih (upsertRow t now a) id]
    show (match lastRec rs id with
      | some r => some (rowOfRecord r now (createdOf (findRow (upsertRow t now a) id) now))
      | none => findRow (upsertRow t now a) id) = _
    cases hl : lastRec rs id with
    | some r =>
      show some _ = (match lastRec (a :: rs) id with
        | some r => some (rowOfRecord r now (createdOf (findRow t id) now))
        | none => findRow t id)
      rw [show lastRec (a :: rs) id = some r from by unfold lastRec; rw [hl],
        createdOf_upsertRow]
    | none =>
      rw [show lastRec (a :: rs) id =
          (if a.id == id then some a else none) from by unfold lastRec; rw [hl]]
      by_cases hk : a.id = id
      · subst hk
        rw [if_pos (by simp), findRow_upsertRow_self]
      · rw [if_neg (by simpa using hk),
          findRow_upsertRow_ne (fun h2 => hk h2.symm)]

theorem table_ext :
    ∀ (a b : Table), a.map Prod.fst = b.map Prod.fst →
      (a.map Prod.fst).Nodup → (∀ id, findRow a id = findRow b id) → a = b := by
  intro a
  induction a with
  | nil =>
    intro b hk _ _
    rw [List.nil_eq, ← List.map_eq_nil_iff (f := Prod.fst), ← hk]
    rfl
  | cons kv a2 ih =>
    intro b hk hnd hfr
    cases b with
    | nil => simp at hk
    | cons kw b2 =>
      simp only [List.map_cons, List.cons.injEq] at hk
      obtain ⟨hk1, hk2⟩ := hk
      simp only [List.map_cons, List.nodup_cons] at hnd
      obtain ⟨hnd1, hnd2⟩ := hnd
      have hval := hfr kv.1
      rw [findRow_cons_self] at hval
      have hfind : findRow (kw :: b2) kv.1 = some kw.2 := by
        rw [hk1]
        exact findRow_cons_self
      have hv2 : kv.2 = kw.2 := by
        rw [hfind] at hval
        exact Option.some.inj hval
      have htl : a2 = b2 := by
        refine ih b2 hk2 hnd2 ?_
        intro id
        by_cases hki : id = kv.1
        · have h1 : findRow a2 id = none := by
            rw [hki]
            exact findRow_eq_none_iff.mpr hnd1
          have h2 : findRow b2 id = none := by
            rw [hki, findRow_eq_none_iff, ← hk2]
            exact hnd1
          rw [h1, h2]
        · have h3 := hfr id
          rw [findRow_cons_ne (fun h2 => hki h2.symm),
            findRow_cons_ne (fun h2 => hki (hk1.trans h2).symm)] at h3
          exact h3
      have hh : kv = kw := Prod.ext hk1 hv2
      rw [hh, htl]

theorem findRow_map_strip :
    ∀ (t : Table) (id : PyV),
      findRow (t.map (fun kv => (kv.1, stripUpdated kv.2))) id =
        (findRow t id).map stripUpdated := by
  intro t
  induction t with
  | nil => intro id; rfl
  | cons kv t ih =>
    intro id
    by_cases hk : kv.1 = id
    · subst hk
      simp only [List.map_cons]
      have h1 : findRow ((kv.1, stripUpdated kv.2) ::
          t.map (fun kv => (kv.1, stripUpdated kv.2))) kv.1 =
          some (stripUpdated kv.2) :=
        @findRow_cons_self (kv.1, stripUpdated kv.2) _
      rw [h1, findRow_cons_self]
      rfl
    · simp only [List.map_cons]
      rw [@findRow_cons_ne (kv.1, stripUpdated kv.2) _ _ hk, findRow_cons_ne hk]
      exact ih id

theorem upsertRow_keys_present {t : Table} {now : Nat} {rec : DbRecord}
    {row : Row} (h : findRow t rec.id = some row) :
    (upsertRow t now rec).map Prod.fst = t.map Prod.fst := by
  unfold upsertRow
  rw [h, List.map_map]
  congr 1
  funext kv
  by_cases hk : (kv.1 == rec.id) = true
  · simp [Function.comp, hk]
  · simp only [Bool.not_eq_true] at hk
    simp [Function.comp, hk]

theorem upsertRow_keys_absent {t : Table} {now : Nat} {rec : DbRecord}
    (h : findRow t rec.id = none) :
    (upsertRow t now rec).map Prod.fst = t.map Prod.fst ++ [rec.id] := by
  unfold upsertRow
  rw [h]
  simp

theorem mem_keys_upsertRow {t : Table} {now : Nat} {rec : DbRecord} :
    rec.id ∈ (upsertRow t now rec).map Prod.fst := by
  cases h : findRow t rec.id with
  | some row =>
    rw [upsertRow_keys_present h]
    by_contra hn
    rw [← findRow_eq_none_iff] at hn
    rw [h] at hn
    cases hn
  | none =>
    rw [upsertRow_keys_absent h]
    simp

theorem mem_keys_upsertRow_mono {t : Table} {now : Nat} {rec : DbRecord}
    {id : PyV} (h : id ∈ t.map Prod.fst) :
    id ∈ (upsertRow t now rec).map Prod.fst := by
  cases hf : findRow t rec.id with
  | some row => rw [upsertRow_keys_present hf]; exact h
  | none => rw [upsertRow_keys_absent hf]; simp [h]

theorem mem_keys_upsertBatch_mono {now : Nat} :
    ∀ (recs : List DbRecord) (t : Table) (id : PyV),
      id ∈ t.map Prod.fst → id ∈ (upsertBatch t now recs).map Prod.fst := by
  intro recs
  induction recs with
  | nil => intro t id h; exact h
  | cons a rs ih =>
    intro t id h
    exact ih (upsertRow t now a) id (mem_keys_upsertRow_mono h)

theorem mem_keys_upsertBatch {now : Nat} :
    ∀ (recs : List DbRecord) (t : Table) (r : DbRecord), r ∈ recs →
      r.id ∈ (upsertBatch t now recs).map Prod.fst := by
  intro recs
  induction recs with
  | nil => intro t r h; cases h
  | cons a rs ih =>
    intro t r h
    rcases List.mem_cons.mp h with rfl | h
    · exact mem_keys_upsertBatch_mono rs (upsertRow t now r) r.id mem_keys_upsertRow
    · exact ih (upsertRow t now a) r h

theorem upsertBatch_keys_present {now : Nat} :
    ∀ (recs : List DbRecord) (t : Table),
      (∀ r ∈ recs, r.id ∈ t.map Prod.fst) →
      (upsertBatch t now recs).map Prod.fst = t.map Prod.fst := by
  intro recs
  induction recs with
  | nil => intro t _; rfl
  | cons a rs ih =>
    intro t h
    have ha := h a (List.mem_cons_self _ _)
    obtain ⟨row, hrow⟩ : ∃ row, findRow t a.id = some row := by
      cases hf : findRow t a.id with
      | some row => exact ⟨row, rfl⟩
      | none => exact absurd ha (findRow_eq_none_iff.mp hf)
    have hkeys := @upsertRow_keys_present t now a row hrow
    have h2 := ih (upsertRow t now a) (fun r hr => by
      rw [hkeys]
      exact h r (List.mem_cons_of_mem _ hr))
    rw [show upsertBatch t now (a :: rs) = upsertBatch (upsertRow t now a) now rs
      from rfl, h2, hkeys]

theorem upsertRow_keys_nodup {t : Table} {now : Nat} {rec : DbRecord}
    (h : (t.map Prod.fst).Nodup) :
    ((upsertRow t now rec).map Prod.fst).Nodup := by
  cases hf : findRow t rec.id with
  | some row => rw [upsertRow_keys_present hf]; exact h
  | none =>
    rw [upsertRow_keys_absent hf]
    have h2 := findRow_eq_none_iff.mp hf
    simp [List.nodup_append, h, h2]

theorem upsertBatch_keys_nodup {now : Nat} :
    ∀ (recs : List DbRecord) (t : Table), (t.map Prod.fst).Nodup →
      ((upsertBatch t now recs).map Prod.fst).Nodup := by
  intro recs
  induction recs with
  | nil => intro t h; exact h
  | cons a rs ih => intro t h; exact ih (upsertRow t now a) (upsertRow_keys_nodup h)

theorem keys_map_strip (t : Table) :
    (t.map (fun kv => (kv.1, stripUpdated kv.2))).map Prod.fst = t.map Prod.fst := by
  rw [List.map_map]
  rfl

/-- C8.  Upsert idempotence on a table with unique ids: re-ingesting the
same batch leaves the keys, the row count and the whole table content
apart from the refreshed `updated_at` timestamps unchanged; ids stay
unique (no duplicate row is ever created); and an upsert of an
already-present id performs a full-column overwrite that keeps only the
original `created_at` (last write wins, no error). -/
theorem claim8_upsert_idempotent (t : Table) (now1 now2 : Nat)
    (recs : List DbRecord) (hnd : (t.map Prod.fst).Nodup) :
    ((upsertBatch (upsertBatch t now1 recs) now2 recs).map Prod.fst =
        (upsertBatch t now1 recs).map Prod.fst) ∧
    ((upsertBatch (upsertBatch t now1 recs) now2 recs).length =
        (upsertBatch t now1 recs).length) ∧
    (((upsertBatch (upsertBatch t now1 recs) now2 recs).map Prod.fst).Nodup) ∧
    ((upsertBatch (upsertBatch t now1 recs) now2 recs).map
        (fun kv => (kv.1, stripUpdated kv.2)) =
      (upsertBatch t now1 recs).map (fun kv => (kv.1, stripUpdated kv.2))) ∧
    (∀ (rec : DbRecord) (row : Row), findRow t rec.id = some row →
      findRow (upsertRow t now2 rec) rec.id =
        some (rowOfRecord rec now2 row.created_at)) := by
  have hkeys : (upsertBatch (upsertBatch t now1 recs) now2 recs).map Prod.fst =
      (upsertBatch t now1 recs).map Prod.fst :=
    upsertBatch_keys_present recs (upsertBatch t now1 recs)
      (fun r hr => mem_keys_upsertBatch recs t r hr)
  have hnd1 : ((upsertBatch t now1 recs).map Prod.fst).Nodup :=
    upsertBatch_keys_nodup recs t hnd
  refine ⟨hkeys, ?_, ?_, ?_, ?_⟩
  · have h1 := congrArg List.length hkeys
    simpa using h1
  · rw [hkeys]
    exact hnd1
  · refine table_ext _ _ ?_ ?_ ?_
    · rw [keys_map_strip, keys_map_strip, hkeys]
    · rw [keys_map_strip, hkeys]
      exact hnd1
    · intro id
      rw [findRow_map_strip, findRow_map_strip]
      rw [findRow_upsertBatch recs (upsertBatch t now1 recs) id]
      cases hl : lastRec recs id with
      | none => rfl
      | some r =>
        have hf1 : findRow (upsertBatch t now1 recs) id =
            some (rowOfRecord r now1 (createdOf (findRow t id) now1)) := by
          rw [findRow_upsertBatch recs t id, hl]
        rw [hf1]
        rfl
  · intro rec row h
    rw [findRow_upsertRow_self, h]
    rfl

set_option maxRecDepth 100000 in
/-- Witness for C8: the empty table ingested twice with the single
transformed record `dbRec0`. -/
theorem claim8_witness :
    ((upsertBatch (upsertBatch ([] : Table) 1 [dbRec0]) 2 [dbRec0]).map Prod.fst =
        (upsertBatch ([] : Table) 1 [dbRec0]).map Prod.fst) ∧
    ((upsertBatch (upsertBatch ([] : Table) 1 [dbRec0]) 2 [dbRec0]).length =
        (upsertBatch ([] : Table) 1 [dbRec0]).length) ∧
    (((upsertBatch (upsertBatch ([] : Table) 1 [dbRec0]) 2 [dbRec0]).map
        Prod.fst).Nodup) ∧
    ((upsertBatch (upsertBatch ([] : Table) 1 [dbRec0]) 2 [dbRec0]).map
        (fun kv => (kv.1, stripUpdated kv.2)) =
      (upsertBatch ([] : Table) 1 [dbRec0]).map
        (fun kv => (kv.1, stripUpdated kv.2))) ∧
    (∀ (rec : DbRecord) (row : Row), findRow ([] : Table) rec.id = some row →
      findRow (upsertRow ([] : Table) 2 rec) rec.id =
        some (rowOfRecord rec 2 row.created_at)) :=
  claim8_upsert_idempotent [] 1 2 [dbRec0] (by simp)

theorem rhe_jitter : roundHalfEven ((577/10 + 1/1000000) * 10000) = 577000 := by
  unfold roundHalfEven
  have heq : ((577/10 + 1/1000000 : Rat) * 10000) = 57700001/100 := by norm_num
  have hf : ((577/10 + 1/1000000 : Rat) * 10000).floor = 577000 := by
    rw [heq]
    show ⌊(57700001/100 : Rat)⌋ = 577000
    rw [Int.floor_eq_iff]
    constructor <;> norm_num
  rw [hf]
  rw [if_pos (by rw [heq]; norm_num)]

theorem rhe_exact : roundHalfEven ((577/10) * 10000) = 577000 := by
  unfold roundHalfEven
  have hf : ((577/10 : Rat) * 10000).floor = 577000 := by
    show ⌊((577/10 : Rat) * 10000)⌋ = 577000
    rw [Int.floor_eq_iff]
    constructor <;> norm_num
  rw [hf]
  rw [if_pos (by norm_num)]

set_option maxRecDepth 100000 in
/-- C1 counterexample.  A mixed-range merge of one storage record and
one API record that differ only by a 0.1-millionth-degree latitude
jitter (and a field the key ignores): the merge returns both records —
the merge path applies no deduplication — although they share the
composite key (`round(lat, 4)`, `round(lon, 4)`, event date, species)
that `_deduplicate_results` would collapse. -/
theorem claim1_counterexample :
    mixedMerge ⟨false, [mrecDb], 1⟩ ⟨false, [mrecApi], 1⟩ 0 10 =
      .ok ([mrecDb, mrecApi], 2) ∧
    compositeKey mrecDb = compositeKey mrecApi ∧
    mrecDb ≠ mrecApi := by
  have h1 : mixedMerge ⟨false, [mrecDb], 1⟩ ⟨false, [mrecApi], 1⟩ 0 10 =
      .ok ([mrecDb, mrecApi], 2) := by rfl
  refine ⟨h1, ?_, ?_⟩
  · have hr : round4 (57700001/1000000) = round4 (577/10) := by
      rw [show (57700001/1000000 : Rat) = 577/10 + 1/1000000 by norm_num]
      unfold round4
      rw [rhe_jitter, rhe_exact]
    norm_num [compositeKey, mrecDb, mrecApi, orQ, orS, strOfOptS, hr]
    decide
  · intro h
    have h2 := congrArg MergeRec.rest h
    simp [mrecDb, mrecApi] at h2

theorem keyLeb_flip {a b : SortKey} (h : keyLeb a b = some false) :
    keyLeb b a = some true := by
  cases a with
  | str s =>
    cases b with
    | str t =>
      simp only [keyLeb, Option.some.injEq, decide_eq_false_iff_not] at h
      simp only [keyLeb, Option.some.injEq, decide_eq_true_eq]
      exact le_of_not_le h
    | num n => simp [keyLeb] at h
  | num n =>
    cases b with
    | str t => simp [keyLeb] at h
    | num m =>
      simp only [keyLeb, Option.some.injEq, decide_eq_false_iff_not] at h
      simp only [keyLeb, Option.some.injEq, decide_eq_true_eq]
      exact le_of_not_le h

theorem keyLeb_trans {a b c : SortKey} (h1 : keyLeb a b = some true)
    (h2 : keyLeb b c = some true) : keyLeb a c = some true := by
  cases a with
  | str s =>
    cases b with
    | str t =>
      cases c with
      | str u =>
        simp only [keyLeb, Option.some.injEq, decide_eq_true_eq] at h1 h2 ⊢
        exact le_trans h1 h2
      | num m => simp [keyLeb] at h2
    | num n => simp [keyLeb] at h1
  | num n =>
    cases b with
    | str t => simp [keyLeb] at h1
    | num m =>
      cases c with
      | str u => simp [keyLeb] at h2
      | num p =>
        simp only [keyLeb, Option.some.injEq, decide_eq_true_eq] at h1 h2 ⊢
        exact le_trans h1 h2

theorem sortDescInsert_spec (x : MergeRec) :
    ∀ (acc res : List MergeRec), sortDescInsert x acc = .ok res →
      (∀ y, y ∈ res ↔ y = x ∨ y ∈ acc) ∧
      (List.Pairwise (fun a b => keyLeb (sortKeyOf b) (sortKeyOf a) = some true) acc →
        List.Pairwise (fun a b => keyLeb (sortKeyOf b) (sortKeyOf a) = some true) res) := by
  intro acc
  induction acc with
  | nil =>
    intro res h
    simp only [sortDescInsert, Except.ok.injEq] at h
    subst h
    exact ⟨fun y => by simp, fun _ => List.pairwise_singleton _ _⟩
  | cons y ys ih =>
    intro res h
    cases hk : keyLeb (sortKeyOf x) (sortKeyOf y) with
    | none =>
      simp only [sortDescInsert, hk] at h
      exact Except.noConfusion h
    | some le =>
      simp only [sortDescInsert, hk] at h
      by_cases hle : le = true
      · subst hle
        rw [if_pos rfl] at h
        cases hrec : sortDescInsert x ys with
        | error u =>
          rw [hrec] at h
          exact Except.noConfusion h
        | ok r =>
          rw [hrec] at h
          have h3 : (Except.ok (y :: r) : Except Unit (List MergeRec)) = .ok res := h
          obtain rfl : y :: r = res := Except.ok.inj h3
          obtain ⟨ihm, ihp⟩ := ih r hrec
          constructor
          · intro y2
            simp only [List.mem_cons, ihm y2]
            tauto
          · intro hp
            cases hp with
            | cons hhead htl =>
              refine List.Pairwise.cons ?_ (ihp htl)
              intro z hz
              rcases (ihm z).mp hz with rfl | hz
              · exact hk
              · exact hhead z hz
      · have hle2 : le = false := by simpa using hle
        subst hle2
        rw [if_neg (by simp)] at h
        have h3 : (Except.ok (x :: y :: ys) : Except Unit (List MergeRec)) = .ok res := h
        obtain rfl : x :: y :: ys = res := Except.ok.inj h3
        constructor
        · intro y2
          simp only [List.mem_cons]
        · intro hp
          refine List.Pairwise.cons ?_ hp
          intro z hz
          have hyx : keyLeb (sortKeyOf y) (sortKeyOf x) = some true := keyLeb_flip hk
          rcases List.mem_cons.mp hz with rfl | hz
          · exact hyx
          · cases hp with
            | cons hhead _ => exact keyLeb_trans (hhead z hz) hyx

theorem sortDesc_fold_spec :
    ∀ (l acc res : List MergeRec),
      List.foldlM (fun acc x => sortDescInsert x acc) acc l = .ok res →
      List.Pairwise (fun a b => keyLeb (sortKeyOf b) (sortKeyOf a) = some true) acc →
      (∀ y, y ∈ res ↔ y ∈ acc ∨ y ∈ l) ∧
      List.Pairwise (fun a b => keyLeb (sortKeyOf b) (sortKeyOf a) = some true) res := by
  intro l
  induction l with
  | nil =>
    intro acc res h hacc
    rw [List.foldlM_nil] at h
    have h2 : (Except.ok acc : Except Unit (List MergeRec)) = .ok res := h
    obtain rfl : acc = res := Except.ok.inj h2
    exact ⟨fun y => by simp, hacc⟩
  | cons x xs ih =>
    intro acc res h hacc
    rw [List.foldlM_cons] at h
    cases hi : sortDescInsert x acc with
    | error u => rw [hi] at h; cases h
    | ok acc2 =>
      rw [hi] at h
      dsimp only [Bind.bind, Except.bind] at h
      obtain ⟨im, ip⟩ := sortDescInsert_spec x acc acc2 hi
      obtain ⟨im2, ip2⟩ := ih acc2 res h (ip hacc)
      refine ⟨?_, ip2⟩
      intro y
      rw [im2 y, im y]
      simp only [List.mem_cons]
      tauto

theorem dedupScan_spec :
    ∀ (l : List MergeRec) (seen : List CKey),
      (∀ r ∈ (dedupScan seen l).1, compositeKey r ∉ seen) ∧
      List.Pairwise (fun a b => compositeKey a ≠ compositeKey b) (dedupScan seen l).1 ∧
      (∀ k ∈ seen, k ∈ (dedupScan seen l).2) ∧
      (∀ r ∈ (dedupScan seen l).1, compositeKey r ∈ (dedupScan seen l).2) := by
  intro l
  induction l with
  | nil =>
    intro seen
    exact ⟨by simp [dedupScan], by simp [dedupScan], fun k hk => by
      simpa [dedupScan] using hk, by simp [dedupScan]⟩
  | cons r rs ih =>
    intro seen
    by_cases hk : compositeKey r ∈ seen
    · have hstep : dedupScan seen (r :: rs) = dedupScan seen rs := by
        simp only [dedupScan]
        rw [if_pos hk]
      rw [hstep]
      exact ih seen
    · have hstep : dedupScan seen (r :: rs) =
          (r :: (dedupScan (compositeKey r :: seen) rs).1,
            (dedupScan (compositeKey r :: seen) rs).2) := by
        simp only [dedupScan]
        rw [if_neg hk]
      rw [hstep]
      obtain ⟨a, b, c, d⟩ := ih (compositeKey r :: seen)
      refine ⟨?_, ?_, ?_, ?_⟩
      · intro r2 hr2
        rcases List.mem_cons.mp hr2 with rfl | hr2
        · exact hk
        · intro hmem
          exact a r2 hr2 (List.mem_cons_of_mem _ hmem)
      · refine List.Pairwise.cons ?_ b
        intro r2 hr2 heq
        exact a r2 hr2 (by rw [← heq]; exact List.mem_cons_self _ _)
      · intro k hkk
        exact c k (List.mem_cons_of_mem _ hkk)
      · intro r2 hr2
        rcases List.mem_cons.mp hr2 with rfl | hr2
        · exact c _ (List.mem_cons_self _ _)
        · exact d r2 hr2

theorem dedupLists_spec :
    ∀ (ls : List (List MergeRec)) (seen : List CKey),
      (∀ r ∈ dedupLists seen ls, compositeKey r ∉ seen) ∧
      List.Pairwise (fun a b => compositeKey a ≠ compositeKey b)
        (dedupLists seen ls) := by
  intro ls
  induction ls with
  | nil => intro seen; exact ⟨by simp [dedupLists], by simp [dedupLists]⟩
  | cons l ls ih =>
    intro seen
    have hstep : dedupLists seen (l :: ls) =
        (dedupScan seen l).1 ++ dedupLists (dedupScan seen l).2 ls := by
      simp only [dedupLists]
    rw [hstep]
    obtain ⟨sa, sb, sc, sd⟩ := dedupScan_spec l seen
    obtain ⟨ia, ib⟩ := ih (dedupScan seen l).2
    constructor
    · intro r hr
      rcases List.mem_append.mp hr with hr | hr
      · exact sa r hr
      · intro hmem
        exact ia r hr (sc _ hmem)
    · rw [List.pairwise_append]
      refine ⟨sb, ib, ?_⟩
      intro r1 hr1 r2 hr2 heq
      exact ia r2 hr2 (heq ▸ sd r1 hr1)

/-- C1 amended.  The merge path of a mixed-range query returns the
concatenation of the non-error sub-results sorted by event-date key
descending with offset and limit applied — but NOT deduplicated: every
returned record is one of the sub-result records, the output is
descending in the sort key, and at most `limit` records are returned
when `limit` is truthy.  Deduplication by composite key does hold for
`_deduplicate_results` (used only by the multi-municipality search
path): its output never contains two records with the same composite
key. -/
theorem claim1_amended (dbR apiR : QueryResult) (offset limit : Nat)
    (out : List MergeRec) (cnt : Nat)
    (h : mixedMerge dbR apiR offset limit = .ok (out, cnt)) :
    (∀ r ∈ out, r ∈ (if dbR.isError then [] else dbR.results) ++
        (if apiR.isError then [] else apiR.results)) ∧
    List.Pairwise (fun a b => keyLeb (sortKeyOf b) (sortKeyOf a) = some true) out ∧
    (limit ≠ 0 → out.length ≤ limit) ∧
    (∀ lists, List.Pairwise (fun a b => compositeKey a ≠ compositeKey b)
      (dedupResults lists)) := by
  simp only [mixedMerge] at h
  cases hs : sortDesc ((if dbR.isError then [] else dbR.results) ++
      (if apiR.isError then [] else apiR.results)) with
  | error u => rw [hs] at h; cases h
  | ok sorted =>
    rw [hs] at h
    simp only [Except.ok.injEq, Prod.mk.injEq] at h
    obtain ⟨hout, hcnt⟩ := h
    obtain ⟨sm, sp⟩ := sortDesc_fold_spec
      ((if dbR.isError then [] else dbR.results) ++
        (if apiR.isError then [] else apiR.results)) [] sorted hs List.Pairwise.nil
    set A := if offset ≠ 0 then sorted.drop offset else sorted with hA
    have h1 : A.Sublist sorted := by
      rw [hA]
      split
      · exact List.drop_sublist _ _
      · exact List.Sublist.refl _
    have h2 : (if limit ≠ 0 then A.take limit else A).Sublist A := by
      split
      · exact List.take_sublist _ _
      · exact List.Sublist.refl _
    have hsub : out.Sublist sorted := by
      rw [← hout]
      exact h2.trans h1
    refine ⟨?_, ?_, ?_, ?_⟩
    · intro r hr
      have hr2 := hsub.subset hr
      rcases (sm r).mp hr2 with hr3 | hr3
      · cases hr3
      · exact hr3
    · exact sp.sublist hsub
    · intro hl
      rw [← hout, if_pos hl]
      exact List.length_take_le _ _
    · intro lists
      exact (dedupLists_spec lists []).2

/-- Witness for the amended C1 theorem at the concrete two-record
mixed merge. -/
theorem claim1_amended_witness :
    (∀ r ∈ ([mrecDb, mrecApi] : List MergeRec),
      r ∈ (if (⟨false, [mrecDb], 1⟩ : QueryResult).isError then []
          else (⟨false, [mrecDb], 1⟩ : QueryResult).results) ++
        (if (⟨false, [mrecApi], 1⟩ : QueryResult).isError then []
          else (⟨false, [mrecApi], 1⟩ : QueryResult).results)) ∧
    List.Pairwise (fun a b => keyLeb (sortKeyOf b) (sortKeyOf a) = some true)
      ([mrecDb, mrecApi] : List MergeRec) ∧
    ((10 : Nat) ≠ 0 → ([mrecDb, mrecApi] : List MergeRec).length ≤ 10) ∧
    (∀ lists, List.Pairwise (fun a b => compositeKey a ≠ compositeKey b)
      (dedupResults lists)) :=
  claim1_amended ⟨false, [mrecDb], 1⟩ ⟨false, [mrecApi], 1⟩ 0 10
    [mrecDb, mrecApi] 2 (by rfl)

end Birding
